import Mathlib

/-!
Verification of the MindBase conversation pipeline.

This file gives a shallow embedding, in Lean, of the parts of the MindBase
code base that the specification claims talk about:

* the canonical `Message` and `Conversation` value types
  (src/collectors/base_collector.py),
* the normalizer (src/libs/collectors/data_normalizer.py),
* the heuristic classifier (src/apps/api/services/classifier.py),
* the derivation pipeline (src/apps/api/services/deriver.py),
* the async retry worker (src/apps/api/workers/raw_deriver.py),
* the similarity search query (src/apps/api/crud/conversation.py).

Modelling conventions:

* SHA-256 hex digests are modelled by an arbitrary function
  `hash : String → String`; every theorem is proved for every such
  function, and concrete witnesses instantiate it with the identity.
* Python `datetime` values are modelled by `Timestamp`: an integer epoch
  value plus an awareness flag.  `replace(tzinfo=timezone.utc)` keeps the
  epoch and sets the flag, matching the treatment of naive values as UTC.
* Wall-clock reads (`datetime.now`) are passed in as explicit parameters.
* Python dictionaries are modelled as association lists with
  insertion-order update semantics.
* Real-valued scores computed by the SQL query are modelled over `ℝ`
  (for the analytic recency formula) and over `ℚ` (for the executable
  filter/order pipeline, where the per-row score values are data).
-/

/-! ## Python character classes and string helpers -/

/-- Characters that Python treats as whitespace (for `str.split()`,
`str.strip()` and the `\s` regex class on `str` patterns). -/
def pySpaceChars : List Char :=
  [' ', '\t', '\n', '\r', '\x0b', '\x0c',
   '\x1c', '\x1d', '\x1e', '\x1f',
   '\u0085', '\u00a0', '\u1680',
   '\u2000', '\u2001', '\u2002', '\u2003', '\u2004', '\u2005',
   '\u2006', '\u2007', '\u2008', '\u2009', '\u200a',
   '\u2028', '\u2029', '\u202f', '\u205f', '\u3000']

def isPySpace (c : Char) : Bool := c ∈ pySpaceChars

/-- The control characters removed by the normalizer pattern
`[\x00-\x08\x0B\x0C\x0E-\x1F\x7F]`. -/
def isCtrlChar (c : Char) : Bool :=
  (c.val ≤ 0x08) || c.val == 0x0b || c.val == 0x0c ||
  (0x0e ≤ c.val && c.val ≤ 0x1f) || c.val == 0x7f

/-- The zero-width characters removed by the normalizer pattern
`U+200B U+200C U+200D U+FEFF`. -/
def isZeroWidth (c : Char) : Bool :=
  c.val == 0x200b || c.val == 0x200c || c.val == 0x200d || c.val == 0xfeff

/-- Python `str.lower()` (ASCII range, which covers every string the
claims below evaluate). -/
def strToLower (s : String) : String := ⟨s.data.map Char.toLower⟩

/-- Python `str.strip()` on the left: drop leading whitespace. -/
def dropLeadingWs (l : List Char) : List Char := l.dropWhile (isPySpace ·)

/-- Python `str.strip()`: drop leading and trailing whitespace. -/
def trimChars (l : List Char) : List Char :=
  ((dropLeadingWs l).reverse.dropWhile (isPySpace ·)).reverse

/-- Python `str.strip()` lifted to `String`. -/
def pyStrip (s : String) : String := ⟨trimChars s.data⟩

/-- Accumulator loop for `pySplit`: gather the current word (reversed)
and cut at whitespace. -/
def pySplitAux : List Char → List Char → List String
  | cur, [] => if cur = [] then [] else [⟨cur.reverse⟩]
  | cur, c :: cs =>
    if isPySpace c then
      if cur = [] then pySplitAux [] cs else ⟨cur.reverse⟩ :: pySplitAux [] cs
    else pySplitAux (c :: cur) cs

/-- Python `str.split()` with no separator: split on whitespace runs,
discarding empty pieces. -/
def pySplit (s : String) : List String := pySplitAux [] s.data

/-- Join a list of strings with a separator, as Python `sep.join(xs)`. -/
def joinSep (sep : String) : List String → String
  | [] => ""
  | [x] => x
  | x :: xs => x ++ sep ++ joinSep sep xs

/-! ## Content cleaning (DataNormalizer._clean_content)

The cleaning patterns are applied in source order:
1. `\s+` → a single space,
2. control characters removed,
3. `\r\n|\r` → `\n`,
4. zero-width characters removed,
then `strip()`, then `\n{3,}` → `\n\n`. -/

/-- Replace every whitespace character by a plain space (first half of the
regex `\s+` → one space). -/
def wsToSpace (l : List Char) : List Char :=
  l.map (fun c => if isPySpace c then ' ' else c)

/-- Collapse runs of adjacent spaces to a single space (second half of the
regex `\s+` → one space, after `wsToSpace`). -/
def squashSpaces : List Char → List Char
  | [] => []
  | [c] => [c]
  | a :: b :: rest =>
    if a = ' ' ∧ b = ' ' then squashSpaces (b :: rest)
    else a :: squashSpaces (b :: rest)

/-- The regex `\r\n|\r` → `\n`. -/
def crlfToNl : List Char → List Char
  | [] => []
  | '\r' :: '\n' :: rest => '\n' :: crlfToNl rest
  | '\r' :: rest => '\n' :: crlfToNl rest
  | c :: rest => c :: crlfToNl rest

/-- The regex `\n{3,}` → `\n\n`: a maximal run of three or more newlines
becomes exactly two. -/
def squashNewlines : List Char → List Char
  | '\n' :: '\n' :: '\n' :: rest => squashNewlines ('\n' :: '\n' :: rest)
  | c :: rest => c :: squashNewlines rest
  | [] => []

/-- The full cleaning pipeline of `DataNormalizer._clean_content` on
character lists. -/
def cleanChars (l : List Char) : List Char :=
  squashNewlines (trimChars
    ((crlfToNl ((squashSpaces (wsToSpace l)).filter (fun c => !isCtrlChar c))).filter
      (fun c => !isZeroWidth c)))

/-- `DataNormalizer._clean_content`: empty input is returned unchanged,
otherwise the cleaning pipeline runs. -/
def cleanContent (s : String) : String :=
  if s = "" then s else ⟨cleanChars s.data⟩

/-! ## Classifier (src/apps/api/services/classifier.py) -/

/-- The static topic → keyword table `TOPIC_KEYWORDS`. -/
def topicKeywords : List (String × List String) :=
  [("Docker-First Development", ["docker", "docker-compose", "container", "workspace", "volume"]),
   ("Turborepo Monorepo", ["turborepo", "pnpm", "monorepo", "workspace", "package.json"]),
   ("Supabase Self-Host", ["supabase", "realtime", "edge function", "kong", "auth"]),
   ("Multi-Tenancy", ["multi-tenant", "tenant", "organization_id", "row level security", "rls"]),
   ("Testing Strategy", ["unit test", "integration test", "playwright", "vitest", "coverage"]),
   ("SuperClaude Framework", ["superclaude", "pm agent", "mcp", "skill", "persona"]),
   ("AlmaLinux HomeServer", ["almalinux", "restic", "tdarr", "nas", "samba"]),
   ("Performance Optimization", ["performance", "optimization", "cache", "latency", "profiling"]),
   ("API Design", ["api", "endpoint", "openapi", "fastapi", "rest"]),
   ("Security", ["authentication", "authorization", "jwt", "encryption", "secret"])]

/-- Whether `needle` is a leading run of `hay`. -/
def charsLeadingRun : List Char → List Char → Bool
  | [], _ => true
  | _ :: _, [] => false
  | a :: as, b :: bs => a == b && charsLeadingRun as bs

/-- Whether `needle` occurs contiguously inside `hay`. -/
def charsSubstring (needle : List Char) : List Char → Bool
  | [] => needle.isEmpty
  | b :: bs => charsLeadingRun needle (b :: bs) || charsSubstring needle bs

/-- Python substring membership `kw in text`. -/
def strContains (text kw : String) : Bool := charsSubstring kw.data text.data

/-- The keyword-detection branch of `infer_topics`: lowercase the text,
keep topics with at least two distinct keyword hits, fall back to
`General`. -/
def detectTopics (text : String) : List String :=
  let textLc := strToLower text
  let detected :=
    (topicKeywords.filter
      (fun tk => 2 ≤ tk.2.countP (fun kw => strContains textLc kw))).map (·.1)
  if detected = [] then ["General"] else detected

/-- `infer_topics(text, existing)`: a non-empty caller list passes through
after dropping falsy entries; otherwise keyword detection. -/
def inferTopics (text : String) (existing : Option (List String)) : List String :=
  match existing with
  | none => detectTopics text
  | some l =>
    if l = [] then detectTopics text
    else if l.filter (· ≠ "") = [] then detectTopics text
    else l.filter (· ≠ "")

/-! ## JSON-like payload values (raw conversation payloads) -/

/-- A Python/JSON value as stored in a raw conversation payload. -/
inductive PyVal where
  | s (v : String)
  | int (v : Int)
  | bool (v : Bool)
  | null
  | list (vs : List PyVal)
  | dict (kvs : List (String × PyVal))

/-- First value bound to a key in a Python dict, modelled as an
association list. -/
def dictGet (k : String) : List (String × PyVal) → Option PyVal
  | [] => none
  | (k', v) :: rest => if k' = k then some v else dictGet k rest

mutual

/-- Python `repr` for payload values (string rendering approximated with
single quotes; only its non-emptiness and behaviour on strings matter
to the claims below). -/
def pyRepr : PyVal → String
  | .s v => "\x27" ++ v ++ "\x27"
  | .int v => toString v
  | .bool b => if b then "True" else "False"
  | .null => "None"
  | .list vs => "[" ++ joinSep ", " (pyReprList vs) ++ "]"
  | .dict kvs => "\x7b" ++ joinSep ", " (pyReprPairs kvs) ++ "\x7d"

def pyReprList : List PyVal → List String
  | [] => []
  | v :: vs => pyRepr v :: pyReprList vs

def pyReprPairs : List (String × PyVal) → List String
  | [] => []
  | (k, v) :: kvs => ("\x27" ++ k ++ "\x27: " ++ pyRepr v) :: pyReprPairs kvs

end

/-- Python `str` for payload values: strings render verbatim, containers
render via `repr`. -/
def pyStr : PyVal → String
  | .s v => v
  | .int v => toString v
  | .bool b => if b then "True" else "False"
  | .null => "None"
  | .list vs => "[" ++ joinSep ", " (pyReprList vs) ++ "]"
  | .dict kvs => "\x7b" ++ joinSep ", " (pyReprPairs kvs) ++ "\x7d"

/-! ## Deriver (src/apps/api/services/deriver.py) -/

/-- `_extract_text_from_content`: flatten the per-message content.  The
result is `none` when the Python code would raise (a `messages` value
that is not a list of dicts); otherwise `(joined, message_count,
raw_content)`. -/
def extractTextFromContent (content : List (String × PyVal)) :
    Option (String × Nat × Option String) :=
  match dictGet "messages" content with
  | some v =>
    match v with
    | .list msgs =>
      match msgs.mapM (fun m => match m with | .dict kvs => some kvs | _ => none) with
      | some dicts =>
        let flattened :=
          (dicts.filter (fun kvs => (dictGet "content" kvs).isSome)).map
            (fun kvs => pyStr ((dictGet "content" kvs).getD (.s "")))
        some (joinSep " " flattened, flattened.length, some (joinSep "\n\n" flattened))
      | none => none
    | _ => none
  | none => some (pyStr (.dict content), 0, none)

/-- The argument passed to the embedding call:
`ollama_client.embed(text_content or " ")`. -/
def embedArg (textContent : String) : String :=
  if textContent = "" then " " else textContent

/-- The fields of `ConversationCreate` that the derivation pipeline
reads when inferring topics. -/
structure CreatePayload where
  content : List (String × PyVal)
  metadata : List (String × PyVal)
  topics : Option (List String)

/-- Decoding of a `topics` entry found in payload metadata (a JSON list
of strings); other shapes yield `none`. -/
def metaTopicsOf (p : CreatePayload) : Option (List String) :=
  match dictGet "topics" p.metadata with
  | some (.list vs) => some (vs.filterMap (fun v => match v with | .s t => some t | _ => none))
  | _ => none

/-- The `existing` argument of the `infer_topics` call in
`process_raw_conversation`: `payload.topics or metadata.get("topics")`. -/
def pickExistingTopics (p : CreatePayload) : Option (List String) :=
  match p.topics with
  | some l => if l = [] then metaTopicsOf p else some l
  | none => metaTopicsOf p

/-- The topics computed by `process_raw_conversation` for a payload:
`infer_topics(text_content, existing=...)` over the flattened text;
`none` when flattening raises. -/
def deriveTopicsOf (p : CreatePayload) : Option (List String) :=
  (extractTextFromContent p.content).map
    (fun r => inferTopics r.1 (pickExistingTopics p))

/-- The scenario payload of the spec:
two messages about docker compose, no explicit project or topics. -/
def dockerScenario : CreatePayload :=
  { content :=
      [("messages", .list
        [.dict [("role", .s "user"), ("content", .s "Docker compose failing")],
         .dict [("role", .s "assistant"), ("content", .s "Check docker-compose logs")]])],
    metadata := [],
    topics := none }

/-! ## Stable sorting

Python `list.sort` / `sorted` and the SQL `ORDER BY` are modelled by a
stable insertion sort on a boolean total preorder; stability matches
CPython (Timsort is stable) and fixes one order allowed by SQL. -/

/-- Insert `a` before the first element `b` with `le a b`; keeps input
order among elements equal under `le`. -/
def insertStable (le : α → α → Bool) (a : α) : List α → List α
  | [] => [a]
  | b :: bs => if le a b then a :: b :: bs else b :: insertStable le a bs

/-- Stable insertion sort. -/
def stableSort (le : α → α → Bool) : List α → List α
  | [] => []
  | x :: xs => insertStable le x (stableSort le xs)

/-! ## Search query (src/apps/api/crud/conversation.py)

The SQL computes, per row, a semantic score (the distance-to-similarity
transform of the store), a recency score and a combined score, filters on
`semantic ≥ threshold`, and sorts by `combined_score DESC` (no further
sort key).  The executable pipeline below carries the per-row score
values as data; the analytic formulas over `ℝ` are modelled separately
for the recency claims. -/

/-- One candidate row of the `conversations` table together with the
score values the query computes for it. -/
structure SearchRow where
  rid : Nat
  hasEmbedding : Bool
  semantic : ℚ
  recency : ℚ
deriving DecidableEq

/-- The combined score
`semantic * semantic_weight + recency * recency_weight` with
`semantic_weight = 1 - recency_weight`. -/
def combinedOf (recencyWeight : ℚ) (r : SearchRow) : ℚ :=
  r.semantic * (1 - recencyWeight) + r.recency * recencyWeight

/-- The search query pipeline: `WHERE embedding IS NOT NULL AND
similarity >= threshold`, then `ORDER BY combined_score DESC`, then
`LIMIT`.  The store is modelled as returning rows in a stable sort of
table order by the single `ORDER BY` key. -/
def searchExec (recencyWeight threshold : ℚ) (lim : Nat)
    (table : List SearchRow) : List SearchRow :=
  (stableSort
    (fun a b => decide (combinedOf recencyWeight b ≤ combinedOf recencyWeight a))
    (table.filter (fun r => r.hasEmbedding && decide (threshold ≤ r.semantic)))).take lim

/-! ## Recency formula (the SQL arithmetic over the reals) -/

/-- The SQL recency score
`LEAST(1.0, EXP(-Δt/τ) + CASE WHEN Δt ≤ window THEN boost ELSE 0 END)`
with `Δt` seconds since candidate creation and `window = boost_days`
in seconds. -/
noncomputable def recencyScore (tau boost window dt : ℝ) : ℝ :=
  min 1 (Real.exp (-(dt / tau)) + if dt ≤ window then boost else 0)

/-- The SQL combined score over the reals. -/
def combinedScore (w semantic recency : ℝ) : ℝ :=
  semantic * (1 - w) + recency * w

/-! ## Async worker (src/apps/api/workers/raw_deriver.py) -/

/-- A raw conversation record as the worker sees it. -/
structure RawRecord where
  rid : Nat
  insertedAt : Int
  processedAt : Option Int
  processingError : Option String
  retryCount : Nat
deriving DecidableEq

/-- The exception branch of the worker loop body: increment
`retry_count`, record the error, and set `processed_at` exactly when the
new count has reached the ceiling. -/
def applyFailure (maxRetries : Nat) (now : Int) (err : String)
    (r : RawRecord) : RawRecord :=
  let rc := r.retryCount + 1
  if maxRetries ≤ rc then
    { r with retryCount := rc, processingError := some err, processedAt := some now }
  else
    { r with retryCount := rc, processingError := some err }

/-- The success branch: `process_raw_conversation` sets `processed_at`
and clears `processing_error`. -/
def markDerived (now : Int) (r : RawRecord) : RawRecord :=
  { r with processedAt := some now, processingError := none }

/-- The worker poll:
`SELECT ... WHERE processed_at IS NULL ORDER BY inserted_at LIMIT batch`. -/
def pollBatch (batchSize : Nat) (store : List RawRecord) : List RawRecord :=
  (stableSort (fun a b => decide (a.insertedAt ≤ b.insertedAt))
    (store.filter (fun r => r.processedAt.isNone))).take batchSize

/-- One pass of the worker loop over a store: every polled record is
derived or pushed through the failure branch (`outcomeOk` tells whether
the derivation attempt for a given record id succeeds); all other
records are untouched. -/
def loopStep (outcomeOk : Nat → Bool) (maxRetries batchSize : Nat)
    (now : Int) (err : String) (store : List RawRecord) : List RawRecord :=
  let batchIds := (pollBatch batchSize store).map (·.rid)
  store.map (fun r =>
    if r.rid ∈ batchIds then
      if outcomeOk r.rid then markDerived now r else applyFailure maxRetries now err r
    else r)

/-! ## Timestamps, messages and conversations (src/collectors/base_collector.py) -/

/-- A Python `datetime`: epoch seconds plus timezone-awareness flag.
`replace(tzinfo=timezone.utc)` keeps the epoch and sets the flag. -/
structure Timestamp where
  epoch : Int
  aware : Bool
deriving DecidableEq

/-- `datetime.replace(tzinfo=timezone.utc)` applied when the value is
naive. -/
def makeAware (t : Timestamp) : Timestamp := { t with aware := true }

/-- A metadata value (the parts of JSON the pipeline writes). -/
inductive MetaVal where
  | b (v : Bool)
  | s (v : String)
  | n (v : Int)
  | strs (v : List String)
deriving DecidableEq

/-- Python dict assignment `d[k] = v` on an insertion-ordered
association list: update in place if present, else append. -/
def metaSet (m : List (String × MetaVal)) (k : String) (v : MetaVal) :
    List (String × MetaVal) :=
  match m with
  | [] => [(k, v)]
  | (k', v') :: rest =>
    if k' = k then (k, v) :: rest else (k', v') :: metaSet rest k v

/-- Lookup in a metadata dict. -/
def metaGet (k : String) : List (String × MetaVal) → Option MetaVal
  | [] => none
  | (k', v) :: rest => if k' = k then some v else metaGet k rest

/-- The canonical `Message` value type. -/
structure Message where
  role : String
  content : String
  timestamp : Timestamp
  messageId : Option String
  parentId : Option String
  metadata : List (String × MetaVal)
deriving DecidableEq

/-- The id generated by `Message.__post_init__` when none is supplied:
`"msg_" + sha256(role + ":" + content)[:16]`. -/
def genMessageId (hash : String → String) (role content : String) : String :=
  "msg_" ++ (hash (role ++ ":" ++ content)).take 16

/-- `Message.__post_init__`: a falsy (absent or empty) `message_id` is
replaced by the generated one; any other supplied id is kept verbatim. -/
def messageIdPostInit (hash : String → String) (provided : Option String)
    (role content : String) : String :=
  match provided with
  | none => genMessageId hash role content
  | some s => if s = "" then genMessageId hash role content else s

/-- Constructing a `Message`, as the dataclass plus `__post_init__`
does: make the timestamp timezone-aware, fill in the message id. -/
def mkMessage (hash : String → String) (role content : String)
    (ts : Timestamp) (providedId parentId : Option String)
    (md : List (String × MetaVal)) : Message :=
  { role := role, content := content,
    timestamp := if ts.aware then ts else makeAware ts,
    messageId := some (messageIdPostInit hash providedId role content),
    parentId := parentId, metadata := md }

/-- The canonical `Conversation` value type. -/
structure Conversation where
  cid : String
  source : String
  title : Option String
  messages : List Message
  createdAt : Option Timestamp
  updatedAt : Option Timestamp
  threadId : Option String
  project : Option String
  workspace : Option String
  tags : List String
  metadata : List (String × MetaVal)
deriving DecidableEq

/-! ## Normalizer (src/libs/collectors/data_normalizer.py)

The per-run statistics counters are omitted (they never influence the
output); the `seen_conversation_hashes` / `seen_message_hashes` instance
sets, which do influence the output, are threaded explicitly as
`NormState`.  A `DataNormalizer` freshly constructed by `__init__` has
both sets empty. -/

/-- A placeholder message for `headD`/`getLastD`; every use below is
guarded by a non-emptiness check mirroring the Python control flow. -/
def dummyMsg : Message :=
  { role := "", content := "", timestamp := ⟨0, true⟩,
    messageId := none, parentId := none, metadata := [] }

/-- A placeholder conversation, in the same role as `dummyMsg`. -/
def dummyConv : Conversation :=
  { cid := "", source := "", title := none, messages := [],
    createdAt := none, updatedAt := none, threadId := none,
    project := none, workspace := none, tags := [], metadata := [] }

/-- `role_mappings["user"]`. -/
def userAliases : List String :=
  ["user", "human", "me", "question", "prompt", "input"]

/-- `role_mappings["assistant"]`. -/
def assistantAliases : List String :=
  ["assistant", "ai", "bot", "claude", "chatgpt", "gpt",
   "cursor", "windsurf", "response", "completion", "output"]

/-- `role_mappings["system"]`. -/
def systemAliases : List String :=
  ["system", "instruction", "context"]

/-- `DataNormalizer._normalize_role`: lowercase and strip, then map via
the alias table in its insertion order; unknown roles default to
`assistant`. -/
def normalizeRole (role : String) : String :=
  let r := pyStrip (strToLower role)
  if r ∈ userAliases then "user"
  else if r ∈ assistantAliases then "assistant"
  else if r ∈ systemAliases then "system"
  else "assistant"

/-- The role update of `_normalize_message`: the message role is
overwritten only when the normalized role differs from the lowercased
one (the source compares against `role.lower()`, so an already-mapped
role keeps its original casing). -/
def roleStep (role : String) : String :=
  let orig := strToLower role
  let norm := normalizeRole orig
  if norm ≠ orig then norm else role

/-- `DataNormalizer._normalize_message`: normalize the role, clean the
content, drop the message if the content is left empty, make the
timestamp timezone-aware. -/
def normalizeMessage (m : Message) : Option Message :=
  let r1 := roleStep m.role
  let c1 := cleanContent m.content
  if c1 = "" ∨ pyStrip c1 = "" then none
  else some ({ m with
    role := r1
    content := c1
    timestamp := if m.timestamp.aware then m.timestamp else makeAware m.timestamp })

/-- The `isoformat()` rendering entering the message hash; injective on
the modelled timestamps, with the awareness suffix kept separate as in
real ISO strings. -/
def tsStr (t : Timestamp) : String :=
  toString t.epoch ++ (if t.aware then "+00:00" else "")

/-- The input of `_get_message_hash`: `role:content:timestamp`. -/
def msgHashInput (m : Message) : String :=
  m.role ++ ":" ++ m.content ++ ":" ++ tsStr m.timestamp

/-- `_get_message_hash`. -/
def msgKey (hash : String → String) (m : Message) : String :=
  hash (msgHashInput m)

/-- The calendar-date component of the conversation hash: the UTC day
index of `created_at` (the model of `created_at.date().isoformat()`,
injective per calendar day).  Only evaluated on normalized
conversations, where `created_at` is present. -/
def dateKey (o : Option Timestamp) : String :=
  toString (Int.fdiv (o.getD ⟨0, true⟩).epoch 86400)

/-- The input of `_get_conversation_hash`:
`source:` + every `role:content:` pair + creation date. -/
def convKeyInput (c : Conversation) : String :=
  c.source ++ ":" ++
    (c.messages.foldl (fun acc m => acc ++ m.role ++ ":" ++ m.content ++ ":") "") ++
    dateKey c.createdAt

/-- `_get_conversation_hash`. -/
def convKey (hash : String → String) (c : Conversation) : String :=
  hash (convKeyInput c)

/-- The message loop of `_normalize_conversation`: normalize each
message and drop those whose hash is already in the (run-global)
`seen_message_hashes` set, adding fresh hashes to it. -/
def normMsgs (hash : String → String) : List String → List Message →
    (List Message × List String)
  | seen, [] => ([], seen)
  | seen, m :: ms =>
    match normalizeMessage m with
    | none => normMsgs hash seen ms
    | some m1 =>
      let k := msgKey hash m1
      if k ∈ seen then normMsgs hash seen ms
      else
        let (rest, seen1) := normMsgs hash (k :: seen) ms
        (m1 :: rest, seen1)

/-- Message comparison used for sorting (`key=lambda m: m.timestamp`;
all compared values are timezone-aware by that point, so the epoch
decides). -/
def msgLe (a b : Message) : Bool := decide (a.timestamp.epoch ≤ b.timestamp.epoch)

/-- `_normalize_title`: keep and clean a non-blank existing title
(truncated to 200 characters), else take the first user message prefix,
else fall back to `"<source> conversation"`. -/
def normalizeTitle (c : Conversation) : String :=
  let keep : Bool :=
    match c.title with
    | some t => decide (t ≠ "") && decide (pyStrip t ≠ "")
    | none => false
  if keep then
    let t0 := match c.title with | some t => t | none => ""
    let t1 := cleanContent t0
    if 200 < t1.length then ⟨t1.data.take 197⟩ ++ "..." else t1
  else
    match c.messages.find? (fun m => m.role == "user") with
    | some m =>
      ⟨m.content.data.take 100⟩ ++ (if 100 < m.content.length then "..." else "")
    | none => c.source ++ " conversation"

/-- The two metadata writes of `_normalize_conversation`. -/
def normMeta (now : String) (md : List (String × MetaVal)) :
    List (String × MetaVal) :=
  metaSet (metaSet md "normalized" (.b true)) "normalization_timestamp" (.s now)

/-- `DataNormalizer._normalize_conversation`: drop empty conversations,
normalize and deduplicate messages, sort them, repair missing or naive
conversation timestamps from the first/last message, normalize the
title, stamp the normalization metadata. -/
def normalizeConversation (hash : String → String) (now : String)
    (seenMsg : List String) (c : Conversation) :
    Option Conversation × List String :=
  if c.messages = [] then (none, seenMsg)
  else
    let (msgs, seen1) := normMsgs hash seenMsg c.messages
    if msgs = [] then (none, seen1)
    else
      let sorted := stableSort msgLe msgs
      let created :=
        match c.createdAt with
        | none => (sorted.headD dummyMsg).timestamp
        | some t => if t.aware then t else (sorted.headD dummyMsg).timestamp
      let updated :=
        match c.updatedAt with
        | none => (sorted.getLastD dummyMsg).timestamp
        | some t => if t.aware then t else (sorted.getLastD dummyMsg).timestamp
      let c1 := { c with messages := sorted,
                         createdAt := some created, updatedAt := some updated }
      let c2 := { c1 with title := some (normalizeTitle c1) }
      let c3 := { c2 with metadata := normMeta now c2.metadata }
      (some c3, seen1)

/-- The dedup state held by a `DataNormalizer` instance. -/
structure NormState where
  seenConv : List String
  seenMsg : List String
deriving DecidableEq

/-- The state of a freshly constructed `DataNormalizer`. -/
def freshState : NormState := ⟨[], []⟩

/-- The source filter: `if source and conv.source != source: continue`
(an empty-string filter is falsy and never filters). -/
def filterReject (filt : Option String) (c : Conversation) : Bool :=
  match filt with
  | some s => decide (s ≠ "") && decide (c.source ≠ s)
  | none => false

/-- `DataNormalizer.normalize_conversations`: filter, normalize each
conversation, and drop those whose conversation hash is already in the
(instance-level) `seen_conversation_hashes` set. -/
def normalizeConversations (hash : String → String) (now : String)
    (filt : Option String) : NormState → List Conversation →
    (List Conversation × NormState)
  | st, [] => ([], st)
  | st, c :: cs =>
    if filterReject filt c then normalizeConversations hash now filt st cs
    else
      match normalizeConversation hash now st.seenMsg c with
      | (none, sm1) =>
        normalizeConversations hash now filt { st with seenMsg := sm1 } cs
      | (some c1, sm1) =>
        let k := convKey hash c1
        if k ∈ st.seenConv then
          normalizeConversations hash now filt { st with seenMsg := sm1 } cs
        else
          let (rest, st1) :=
            normalizeConversations hash now filt ⟨k :: st.seenConv, sm1⟩ cs
          (c1 :: rest, st1)

/-! ## Conversation merging (DataNormalizer.merge_conversations) -/

/-- The deduplicated word set of a text (Python
`set(text.lower().split())`), as a duplicate-free list. -/
def wordSet (t : String) : List String := (pySplit (strToLower t)).dedup

/-- `_calculate_similarity`: Jaccard word-overlap ratio. -/
def calcSimilarity (t1 t2 : String) : ℚ :=
  let w1 := wordSet t1
  let w2 := wordSet t2
  if w1 = [] ∨ w2 = [] then 0
  else
    let inter := w1.filter (fun x => decide (x ∈ w2))
    let uni := w1 ++ w2.filter (fun x => decide (x ∉ w1))
    if uni.length = 0 then 0 else (inter.length : ℚ) / (uni.length : ℚ)

/-- Unwrapping of optional timestamps where the Python code would have
raised on `None`; every use below is covered by hypotheses supplying the
value. -/
def tsOf (o : Option Timestamp) : Timestamp := o.getD ⟨0, true⟩

/-- `_should_merge`: same source, creation gap over the prior update at
most 30 minutes, and boundary similarity above 0.7 (on the first 100
characters of the boundary messages) or a matching truthy thread id. -/
def shouldMerge (c1 c2 : Conversation) : Bool :=
  if c1.source ≠ c2.source then false
  else if 1800 < (tsOf c2.createdAt).epoch - (tsOf c1.updatedAt).epoch then false
  else if (match c1.messages.getLast?, c2.messages.head? with
    | some lm, some fm =>
      decide ((7 : ℚ)/10 <
        calcSimilarity ⟨lm.content.data.take 100⟩ ⟨fm.content.data.take 100⟩)
    | _, _ => false) then true
  else
    match c1.threadId with
    | some tid => decide (tid ≠ "") && decide (c2.threadId = some tid)
    | none => false

/-- The message dedup of `_merge_conversation_group` (a fresh local
`seen_hashes` set). -/
def dedupMessages (hash : String → String) :
    List Message → List String → List Message
  | [], _ => []
  | m :: ms, seen =>
    if msgKey hash m ∈ seen then dedupMessages hash ms seen
    else m :: dedupMessages hash ms (msgKey hash m :: seen)

/-- Python `str.startswith`. -/
def startsWithStr (s pre : String) : Bool := charsLeadingRun pre.data s.data

/-- `_generate_merged_title`: the first truthy title not starting with
its own source, else the first title. -/
def genMergedTitle (cs : List Conversation) : Option String :=
  match cs.find? (fun c =>
    match c.title with
    | some t => decide (t ≠ "") && !(startsWithStr t c.source)
    | none => false) with
  | some c => c.title
  | none => (cs.headD dummyConv).title

/-- `_merge_tags`: the set union of all tags (set iteration order is
unspecified in the source; the model fixes first-occurrence order,
which no claim depends on). -/
def mergeTags (cs : List Conversation) : List String :=
  (cs.foldl (fun acc c => acc ++ c.tags) []).dedup

/-- Python `dict.update` folded over a metadata dict. -/
def dictUpdate (acc : List (String × MetaVal)) (kvs : List (String × MetaVal)) :
    List (String × MetaVal) :=
  kvs.foldl (fun a kv => metaSet a kv.1 kv.2) acc

/-- `_merge_metadata`: union of all metadata plus the merge markers. -/
def mergeMetadata (cs : List Conversation) : List (String × MetaVal) :=
  let md := cs.foldl (fun acc c => dictUpdate acc c.metadata) []
  metaSet (metaSet (metaSet md "merged" (.b true))
    "merged_count" (.n cs.length)) "merged_ids" (.strs (cs.map (·.cid)))

/-- The `str(...)` rendering of an optional timestamp inside the
generated conversation id. -/
def tsObjStr (o : Option Timestamp) : String :=
  match o with
  | none => "None"
  | some t => tsStr t

/-- The id generated by `Conversation.__post_init__` when the id is
falsy. -/
def genConvId (hash : String → String) (c : Conversation) : String :=
  "conv_" ++ ⟨(hash (c.source ++ ":" ++
    (match c.threadId with | some t => t | none => "None") ++ ":" ++
    tsObjStr c.createdAt)).data.take 16⟩

/-- `Conversation.__post_init__`: make present timestamps aware,
generate the id when falsy. -/
def convPostInit (hash : String → String) (c : Conversation) : Conversation :=
  let c1 := { c with
    createdAt := c.createdAt.map (fun t => if t.aware then t else makeAware t),
    updatedAt := c.updatedAt.map (fun t => if t.aware then t else makeAware t) }
  if c1.cid = "" then { c1 with cid := genConvId hash c1 } else c1

/-- Conversation comparison for the merge sort
(`key=lambda c: c.created_at`). -/
def convLe (a b : Conversation) : Bool :=
  decide ((tsOf a.createdAt).epoch ≤ (tsOf b.createdAt).epoch)

/-- `_merge_conversation_group`: singleton groups pass through; larger
groups merge all messages (deduplicated, time-sorted) into a fresh
`Conversation` carrying the first id/thread/project, the last update
time, unioned tags and annotated metadata. -/
def mergeGroup (hash : String → String) : List Conversation → Option Conversation
  | [] => none
  | [c] => some c
  | c0 :: c1 :: rest =>
    let cs := c0 :: c1 :: rest
    let allMsgs := cs.foldl (fun acc c => acc ++ c.messages) []
    let uniq := dedupMessages hash allMsgs []
    let sorted := stableSort msgLe uniq
    some (convPostInit hash
      { cid := c0.cid, source := c0.source,
        title := genMergedTitle cs, messages := sorted,
        createdAt := c0.createdAt, updatedAt := (cs.getLastD dummyConv).updatedAt,
        threadId := c0.threadId, project := c0.project, workspace := none,
        tags := mergeTags cs, metadata := mergeMetadata cs })

/-- The grouping loop of `merge_conversations`: extend the current group
while `_should_merge(group[-1], next)` holds, else flush it. -/
def mergeLoop (hash : String → String) (group : List Conversation) :
    List Conversation → List Conversation
  | [] => (mergeGroup hash group).toList
  | c :: cs =>
    if shouldMerge (group.getLastD dummyConv) c then
      mergeLoop hash (group ++ [c]) cs
    else
      (mergeGroup hash group).toList ++ mergeLoop hash [c] cs

/-- `DataNormalizer.merge_conversations`: sort by creation time, then
group-and-merge adjacent continuations. -/
def mergeConversations (hash : String → String) (convs : List Conversation) :
    List Conversation :=
  match stableSort convLe convs with
  | [] => []
  | c0 :: rest => mergeLoop hash [c0] rest

/-- Helper: the identity stands in for a concrete hex digest function in
closed witnesses. -/
def idHash : String → String := fun s => s

/-- A concrete single-message conversation used by closed
counterexamples and witnesses. -/
def cexMsg : Message :=
  { role := "Human", content := "hello there", timestamp := ⟨100, false⟩,
    messageId := none, parentId := none, metadata := [] }

/-- A concrete conversation wrapping `cexMsg`. -/
def cexConv : Conversation :=
  { cid := "c1", source := "cursor", title := none, messages := [cexMsg],
    createdAt := some ⟨100, false⟩, updatedAt := none, threadId := none,
    project := none, workspace := none, tags := [], metadata := [] }

/-- Concrete messages for the merge witness. -/
def mrgMsgA : Message :=
  { role := "user", content := "alpha beta gamma", timestamp := ⟨0, true⟩,
    messageId := none, parentId := none, metadata := [] }

def mrgMsgB : Message :=
  { role := "assistant", content := "alpha beta gamma delta", timestamp := ⟨50, true⟩,
    messageId := none, parentId := none, metadata := [] }

/-- Concrete conversations for the merge witness: same source, 90
seconds apart, with overlapping boundary text. -/
def mrgConvA : Conversation :=
  { cid := "a", source := "cursor", title := some "t1", messages := [mrgMsgA],
    createdAt := some ⟨0, true⟩, updatedAt := some ⟨10, true⟩, threadId := none,
    project := none, workspace := none, tags := [], metadata := [] }

def mrgConvB : Conversation :=
  { cid := "b", source := "cursor", title := some "t2", messages := [mrgMsgB],
    createdAt := some ⟨100, true⟩, updatedAt := some ⟨110, true⟩, threadId := none,
    project := none, workspace := none, tags := [], metadata := [] }

/-! ## Invariants for the idempotence analysis -/

/-- No two adjacent spaces. -/
def noTwoSpaces (l : List Char) : Prop :=
  l.Chain' (fun a b => ¬(a = ' ' ∧ b = ' '))

/-- Every whitespace character is a plain space. -/
def wsIsSpace (l : List Char) : Prop := ∀ c ∈ l, isPySpace c = true → c = ' '

/-- No character is removed by the control or zero-width patterns. -/
def allTameChars (l : List Char) : Prop :=
  ∀ c ∈ l, isCtrlChar c = false ∧ isZeroWidth c = false

/-- Neither end of the list is whitespace. -/
def edgesNotSpace (l : List Char) : Prop :=
  (∀ c, l.head? = some c → isPySpace c = false) ∧
  (∀ c, l.getLast? = some c → isPySpace c = false)

/-- The invariant characterizing outputs of `cleanChars` on tame input;
it makes every stage of the pipeline the identity. -/
def cleanFix (l : List Char) : Prop :=
  wsIsSpace l ∧ allTameChars l ∧ noTwoSpaces l ∧ edgesNotSpace l

/-- A string free of the control and zero-width characters that the
cleaning patterns delete. -/
def tameStr (s : String) : Bool :=
  s.data.all (fun c => !isCtrlChar c && !isZeroWidth c)

/-- A source tag: non-empty, free of deleted characters and whitespace,
and short enough that the fallback title escapes truncation. -/
def plainToken (s : String) : Bool :=
  s.data.all (fun c => !isCtrlChar c && !isZeroWidth c && !isPySpace c) &&
  !(s == "") && decide (s.length ≤ 187)

/-- Input conversations on which normalization is idempotent: message
contents and titles free of deleted characters, plain source tags. -/
def tameConv (c : Conversation) : Bool :=
  c.messages.all (fun m => tameStr m.content) &&
  (match c.title with | some t => tameStr t | none => true) &&
  plainToken c.source

/-- What one normalization run guarantees of each output conversation:
renormalizing it is the identity, its messages are sorted with distinct
dedup keys, its timestamps are aware, its title and metadata are fixed
points. -/
structure ConvNormed (hash : String → String) (now : String)
    (c : Conversation) : Prop where
  msgsNe : c.messages ≠ []
  msgsFix : ∀ m ∈ c.messages, normalizeMessage m = some m
  msgsSorted : c.messages.Pairwise (fun a b => msgLe a b = true)
  keysNodup : (c.messages.map (msgKey hash)).Nodup
  createdAware : ∃ t, c.createdAt = some t ∧ t.aware = true
  updatedAware : ∃ t, c.updatedAt = some t ∧ t.aware = true
  titleFix : c.title = some (normalizeTitle c)
  metaFix : normMeta now c.metadata = c.metadata

/-- What run one guarantees of the title it stores: renormalizing keeps
it unchanged. -/
def titleGood (t : String) : Prop := cleanFix t.data ∧ t ≠ "" ∧ t.length ≤ 200

/-! ## Theorems -/

/-! ### Stable sort lemmas -/

theorem insertStable_perm (le : α → α → Bool) (a : α) (l : List α) :
    List.Perm (insertStable le a l) (a :: l) := by
  induction l with
  | nil => exact List.Perm.refl _
  | cons b bs ih =>
    simp only [insertStable]
    split
    · exact List.Perm.refl _
    · exact (ih.cons b).trans (List.Perm.swap a b bs)

theorem stableSort_perm (le : α → α → Bool) (l : List α) :
    List.Perm (stableSort le l) l := by
  induction l with
  | nil => exact List.Perm.refl _
  | cons x xs ih => exact (insertStable_perm le x _).trans (ih.cons x)

theorem mem_stableSort {le : α → α → Bool} {a : α} {l : List α} :
    a ∈ stableSort le l ↔ a ∈ l :=
  (stableSort_perm le l).mem_iff

theorem mem_insertStable {le : α → α → Bool} {a b : α} {l : List α} :
    b ∈ insertStable le a l ↔ b ∈ a :: l :=
  (insertStable_perm le a l).mem_iff

theorem pairwise_insertStable {le : α → α → Bool}
    (htotal : ∀ a b, le a b = true ∨ le b a = true)
    (htrans : ∀ a b c, le a b = true → le b c = true → le a c = true)
    {a : α} {l : List α} (h : l.Pairwise (fun x y => le x y = true)) :
    (insertStable le a l).Pairwise (fun x y => le x y = true) := by
  induction l with
  | nil => simp [insertStable]
  | cons b bs ih =>
    obtain ⟨hb, hbs⟩ := List.pairwise_cons.mp h
    simp only [insertStable]
    split
    · rename_i hab
      refine List.Pairwise.cons ?_ h
      intro y hy
      rcases List.mem_cons.mp hy with hyb | hybs
      · exact hyb ▸ hab
      · exact htrans a b y hab (hb y hybs)
    · rename_i hab
      have hba : le b a = true := by
        rcases htotal a b with hx | hx
        · exact absurd hx hab
        · exact hx
      refine List.Pairwise.cons ?_ (ih hbs)
      intro y hy
      rcases List.mem_cons.mp (mem_insertStable.mp hy) with hya | hybs
      · exact hya ▸ hba
      · exact hb y hybs

theorem pairwise_stableSort {le : α → α → Bool}
    (htotal : ∀ a b, le a b = true ∨ le b a = true)
    (htrans : ∀ a b c, le a b = true → le b c = true → le a c = true)
    (l : List α) :
    (stableSort le l).Pairwise (fun x y => le x y = true) := by
  induction l with
  | nil => simp [stableSort]
  | cons x xs ih => exact pairwise_insertStable htotal htrans ih

theorem stableSort_of_pairwise {le : α → α → Bool} {l : List α}
    (h : l.Pairwise (fun x y => le x y = true)) :
    stableSort le l = l := by
  induction l with
  | nil => rfl
  | cons x xs ih =>
    obtain ⟨hx, hxs⟩ := List.pairwise_cons.mp h
    rw [stableSort, ih hxs]
    cases xs with
    | nil => rfl
    | cons b bs =>
      have hxb : le x b = true := hx b (List.mem_cons_self b bs)
      simp [insertStable, hxb]

/-- C10: `infer_topics` always returns a non-empty list; a caller list of
only falsy entries is ignored rather than returned, and surviving entries
of a caller list pass through unchanged. -/
theorem inferTopics_total_nonempty :
    (∀ text existing, inferTopics text existing ≠ []) ∧
    (∀ text l, l.filter (· ≠ "") = [] → inferTopics text (some l) = inferTopics text none) ∧
    (∀ text l, l.filter (· ≠ "") ≠ [] → inferTopics text (some l) = l.filter (· ≠ "")) := by
  have hdet : ∀ text : String, detectTopics text ≠ [] := by
    intro text
    simp only [detectTopics]
    split
    · simp
    · assumption
  refine ⟨fun text existing => ?_, fun text l h => ?_, fun text l h => ?_⟩
  · cases existing with
    | none => exact hdet text
    | some l =>
      simp only [inferTopics]
      by_cases h0 : l = []
      · rw [if_pos h0]; exact hdet text
      · rw [if_neg h0]
        by_cases h1 : l.filter (· ≠ "") = []
        · rw [if_pos h1]; exact hdet text
        · rw [if_neg h1]; exact h1
  · simp only [inferTopics]
    by_cases h0 : l = []
    · rw [if_pos h0]
    · rw [if_neg h0, if_pos h]
  · have h0 : l ≠ [] := by
      intro hc
      rw [hc] at h
      simp at h
    simp only [inferTopics]
    rw [if_neg h0, if_neg h]

/-- Witness for C10 at a concrete input: a caller list containing only
empty strings is ignored and the result is non-empty. -/
theorem inferTopics_total_nonempty_witness :
    inferTopics "docker" (some ["", ""]) = inferTopics "docker" none ∧
    inferTopics "docker" (some ["", ""]) ≠ [] := by
  constructor
  · exact inferTopics_total_nonempty.2.1 "docker" ["", ""] (by decide)
  · exact inferTopics_total_nonempty.1 "docker" (some ["", ""])

/-- C6: deriving the docker-compose scenario payload, which carries no
explicit project or topics, yields exactly the topic list
`["Docker-First Development"]`: that topic alone reaches two distinct
keyword hits (`docker` and `docker-compose`) in the flattened
lowercased text. -/
theorem dockerScenario_topics :
    deriveTopicsOf dockerScenario = some ["Docker-First Development"] := by
  decide

/-- C9: whenever `_extract_text_from_content` returns (so the embedding
call is reached), the argument `text_content or " "` passed to the
embedding service is never the empty string, and it is exactly the
single-space placeholder when the flattened text is empty. -/
theorem embedArg_nonempty (content : List (String × PyVal))
    (r : String × Nat × Option String)
    (_h : extractTextFromContent content = some r) :
    embedArg r.1 ≠ "" ∧ (r.1 = "" → embedArg r.1 = " ") := by
  constructor
  · simp only [embedArg]
    split
    · simp
    · assumption
  · intro he
    simp [embedArg, he]

/-- Witness for C9 at a concrete input: a single message whose content is
the empty string flattens to the empty string, and the embedding call
receives the single-space placeholder. -/
theorem embedArg_nonempty_witness :
    embedArg ("" : String) ≠ "" ∧ embedArg ("" : String) = " " := by
  have h := embedArg_nonempty
    [("messages", PyVal.list [PyVal.dict [("content", PyVal.s "")]])]
    ("", 1, some "") (by rfl)
  exact ⟨h.1, h.2 rfl⟩

/-- C7: every row returned by the search query has semantic similarity at
least the threshold; the `WHERE` clause filters before ranking, so no
recency value can bring a below-threshold candidate back. -/
theorem search_threshold_bound {w t : ℚ} {lim : Nat} {table : List SearchRow}
    {r : SearchRow} (h : r ∈ searchExec w t lim table) : t ≤ r.semantic := by
  have h1 : r ∈ stableSort
      (fun a b => decide (combinedOf w b ≤ combinedOf w a))
      (table.filter (fun r => r.hasEmbedding && decide (t ≤ r.semantic))) :=
    List.take_subset _ _ h
  have h2 := List.mem_filter.mp (mem_stableSort.mp h1)
  have h3 := h2.2
  simp only [Bool.and_eq_true, decide_eq_true_eq] at h3
  exact h3.2

/-- Witness for C7 at a concrete input: a single above-threshold row is
returned and its similarity meets the threshold. -/
theorem search_threshold_bound_witness :
    ((4 : ℚ)/5) ≤ (SearchRow.mk 1 true (9/10) (1/2)).semantic := by
  refine @search_threshold_bound (3/20) (4/5) 10 [⟨1, true, 9/10, 1/2⟩]
    ⟨1, true, 9/10, 1/2⟩ ?_
  norm_num [searchExec, stableSort, insertStable, List.filter]

/-- C2, counterexample: the SQL orders by `combined_score DESC` only.
With two rows of equal combined score, the row with the smaller semantic
score can come first, so equal-combined results are not ordered by
semantic descending. -/
theorem search_no_semantic_tiebreak :
    searchExec (1/2) 0 10
        [⟨1, true, 4/5, 9/10⟩, ⟨2, true, 9/10, 4/5⟩] =
      [⟨1, true, 4/5, 9/10⟩, ⟨2, true, 9/10, 4/5⟩] ∧
    combinedOf (1/2) ⟨1, true, 4/5, 9/10⟩ = combinedOf (1/2) ⟨2, true, 9/10, 4/5⟩ ∧
    (SearchRow.mk 1 true (4/5) (9/10)).semantic <
      (SearchRow.mk 2 true (9/10) (4/5)).semantic := by
  refine ⟨?_, ?_, ?_⟩
  · norm_num [searchExec, stableSort, insertStable, combinedOf, List.filter]
  · norm_num [combinedOf]
  · norm_num

/-- C2, amended: search results are ordered by combined score
descending; nothing more is guaranteed for ties. -/
theorem search_ordered_by_combined (w t : ℚ) (lim : Nat) (table : List SearchRow) :
    (searchExec w t lim table).Pairwise
      (fun a b => combinedOf w b ≤ combinedOf w a) := by
  have hp := @pairwise_stableSort SearchRow
    (fun a b : SearchRow => decide (combinedOf w b ≤ combinedOf w a))
    (fun a b => by
      rcases le_total (combinedOf w b) (combinedOf w a) with h | h
      · exact Or.inl (by simpa using h)
      · exact Or.inr (by simpa using h))
    (fun a b c hab hbc => by
      simp only [decide_eq_true_eq] at hab hbc ⊢
      exact le_trans hbc hab)
    (table.filter (fun r => r.hasEmbedding && decide (t ≤ r.semantic)))
  have hs : (searchExec w t lim table).Sublist
      (stableSort (fun a b => decide (combinedOf w b ≤ combinedOf w a))
        (table.filter (fun r => r.hasEmbedding && decide (t ≤ r.semantic)))) :=
    List.take_sublist _ _
  have := hp.sublist hs
  exact this.imp (fun h => by simpa using h)

/-- C4: for equal semantic score, a candidate with smaller Δt never has a
lower combined score, for every configuration with non-negative recency
weight, non-negative boost and positive decay constant. -/
theorem recency_monotone (tau boost window w s dt1 dt2 : ℝ)
    (hw : 0 ≤ w) (hb : 0 ≤ boost) (htau : 0 < tau) (hd : dt1 ≤ dt2) :
    combinedScore w s (recencyScore tau boost window dt2) ≤
      combinedScore w s (recencyScore tau boost window dt1) := by
  have hrec : recencyScore tau boost window dt2 ≤ recencyScore tau boost window dt1 := by
    unfold recencyScore
    refine min_le_min (le_refl 1) (add_le_add ?_ ?_)
    · exact Real.exp_le_exp.mpr (neg_le_neg ((div_le_div_iff_of_pos_right htau).mpr hd))
    · by_cases h2 : dt2 ≤ window
      · rw [if_pos h2, if_pos (le_trans hd h2)]
      · rw [if_neg h2]
        split
        · exact hb
        · exact le_refl 0
  unfold combinedScore
  exact add_le_add_left (mul_le_mul_of_nonneg_right hrec hw) _

/-- Witness for C4 at the default configuration (τ = 14 days, boost
0.05, window 3 days, weight 0.15): a one-day-old candidate scores at
least as high as a fifteen-day-old one with the same semantic score. -/
theorem recency_monotone_witness :
    combinedScore (3/20) (1/2) (recencyScore 1209600 (1/20) 259200 1296000) ≤
      combinedScore (3/20) (1/2) (recencyScore 1209600 (1/20) 259200 86400) :=
  recency_monotone 1209600 (1/20) 259200 (3/20) (1/2) 86400 1296000
    (by norm_num) (by norm_num) (by norm_num) (by norm_num)

/-- C3: a raw record that fails derivation three times under ceiling 3
stays pollable after the first two failures, then reaches the terminal
state (`processed_at` set, `processing_error` non-null, `retry_count`
equal to 3); the poll selects only records with `processed_at` null, so
the terminal record is never selected again; and the loop routes a
failing polled record through exactly this failure transition. -/
theorem raw_retry_terminal (r : RawRecord) (h0 : r.processedAt = none)
    (h1 : r.retryCount = 0) (n1 n2 n3 : Int) (e1 e2 e3 : String) :
    (applyFailure 3 n1 e1 r).processedAt = none ∧
    (applyFailure 3 n2 e2 (applyFailure 3 n1 e1 r)).processedAt = none ∧
    (applyFailure 3 n3 e3 (applyFailure 3 n2 e2 (applyFailure 3 n1 e1 r))).processedAt
      = some n3 ∧
    (applyFailure 3 n3 e3 (applyFailure 3 n2 e2 (applyFailure 3 n1 e1 r))).processingError
      = some e3 ∧
    (applyFailure 3 n3 e3 (applyFailure 3 n2 e2 (applyFailure 3 n1 e1 r))).retryCount = 3 ∧
    (∀ batchSize store,
      applyFailure 3 n3 e3 (applyFailure 3 n2 e2 (applyFailure 3 n1 e1 r)) ∉
        pollBatch batchSize store) ∧
    (∀ batchSize store x, x ∈ pollBatch batchSize store → x.processedAt = none) ∧
    (∀ now err, loopStep (fun _ => false) 3 5 now err [r] = [applyFailure 3 now err r]) := by
  have hpoll : ∀ batchSize (store : List RawRecord) x,
      x ∈ pollBatch batchSize store → x.processedAt = none := by
    intro batchSize store x hx
    have hx1 : x ∈ stableSort (fun a b => decide (a.insertedAt ≤ b.insertedAt))
        (store.filter (fun r => r.processedAt.isNone)) := List.take_subset _ _ hx
    have hx2 := (List.mem_filter.mp (mem_stableSort.mp hx1)).2
    exact Option.isNone_iff_eq_none.mp hx2
  have hterm :
      (applyFailure 3 n3 e3 (applyFailure 3 n2 e2 (applyFailure 3 n1 e1 r))).processedAt
        = some n3 := by
    simp [applyFailure, h0, h1]
  refine ⟨by simp [applyFailure, h0, h1], by simp [applyFailure, h0, h1],
    hterm, by simp [applyFailure, h0, h1], by simp [applyFailure, h0, h1],
    ?_, hpoll, ?_⟩
  · intro batchSize store hmem
    have := hpoll batchSize store _ hmem
    rw [hterm] at this
    exact Option.noConfusion this
  · intro now err
    simp [loopStep, pollBatch, stableSort, insertStable, List.filter, h0,
      Option.isNone_iff_eq_none]

/-- Witness for C3 at a concrete record: a fresh record (id 1, inserted
at time 0) failing three times ends terminal with `retry_count = 3`. -/
theorem raw_retry_terminal_witness :
    (applyFailure 3 30 "e3" (applyFailure 3 20 "e2"
      (applyFailure 3 10 "e1" ⟨1, 0, none, none, 0⟩))).processedAt = some 30 ∧
    (applyFailure 3 30 "e3" (applyFailure 3 20 "e2"
      (applyFailure 3 10 "e1" ⟨1, 0, none, none, 0⟩))).retryCount = 3 := by
  have h := raw_retry_terminal ⟨1, 0, none, none, 0⟩ rfl rfl 10 20 30 "e1" "e2" "e3"
  exact ⟨h.2.2.1, h.2.2.2.2.1⟩

/-- C8, counterexample: a `Message` constructed with an explicitly
supplied `message_id` keeps it verbatim, so two constructible messages
with identical role and content can have different ids. -/
theorem messageId_not_unconditional :
    (mkMessage idHash "user" "x" ⟨0, true⟩ (some "custom") none []).role =
      (mkMessage idHash "user" "x" ⟨0, true⟩ none none []).role ∧
    (mkMessage idHash "user" "x" ⟨0, true⟩ (some "custom") none []).content =
      (mkMessage idHash "user" "x" ⟨0, true⟩ none none []).content ∧
    (mkMessage idHash "user" "x" ⟨0, true⟩ (some "custom") none []).messageId ≠
      (mkMessage idHash "user" "x" ⟨0, true⟩ none none []).messageId := by
  refine ⟨rfl, rfl, ?_⟩
  decide

/-- C8, amended: whenever the id is auto-generated (absent or falsy
supplied id), messages with identical role and content receive equal
`message_id`, independently of every other field. -/
theorem messageId_deterministic (hash : String → String) (role content : String)
    (ts1 ts2 : Timestamp) (pid1 pid2 par1 par2 : Option String)
    (md1 md2 : List (String × MetaVal))
    (h1 : pid1 = none ∨ pid1 = some "") (h2 : pid2 = none ∨ pid2 = some "") :
    (mkMessage hash role content ts1 pid1 par1 md1).messageId =
      (mkMessage hash role content ts2 pid2 par2 md2).messageId := by
  rcases h1 with h1 | h1 <;> rcases h2 with h2 | h2 <;> subst h1 <;> subst h2 <;>
    simp [mkMessage, messageIdPostInit]

/-- Witness for C8 at concrete inputs: two auto-generated messages with
equal role and content but different timestamps share their id. -/
theorem messageId_deterministic_witness :
    (mkMessage idHash "user" "hello" ⟨0, true⟩ none none []).messageId =
      (mkMessage idHash "user" "hello" ⟨5, false⟩ (some "") none []).messageId :=
  messageId_deterministic idHash "user" "hello" ⟨0, true⟩ ⟨5, false⟩
    none (some "") none none [] [] (Or.inl rfl) (Or.inr rfl)

/-! ### Message dedup lemmas (for the merge step) -/

theorem dedupMessages_subset {hash : String → String} {l : List Message}
    {seen : List String} {x : Message}
    (h : x ∈ dedupMessages hash l seen) : x ∈ l := by
  induction l generalizing seen with
  | nil => simp [dedupMessages] at h
  | cons m ms ih =>
    simp only [dedupMessages] at h
    split at h
    · exact List.mem_cons_of_mem m (ih h)
    · rcases List.mem_cons.mp h with hx | hx
      · exact hx ▸ List.mem_cons_self m ms
      · exact List.mem_cons_of_mem m (ih hx)

theorem dedupMessages_covers {hash : String → String} {l : List Message}
    {seen : List String} {x : Message} (hx : x ∈ l) :
    msgKey hash x ∈ seen ∨
      ∃ y ∈ dedupMessages hash l seen, msgKey hash y = msgKey hash x := by
  induction l generalizing seen with
  | nil => simp at hx
  | cons m ms ih =>
    simp only [dedupMessages]
    rcases List.mem_cons.mp hx with hx1 | hx1
    · subst hx1
      by_cases hm : msgKey hash x ∈ seen
      · simp only [if_pos hm]
        exact Or.inl hm
      · simp only [if_neg hm]
        exact Or.inr ⟨x, List.mem_cons_self _ _, rfl⟩
    · by_cases hm : msgKey hash m ∈ seen
      · simp only [if_pos hm]
        exact ih hx1
      · simp only [if_neg hm]
        rcases @ih (msgKey hash m :: seen) hx1 with hk | ⟨y, hy, hky⟩
        · rcases List.mem_cons.mp hk with hk1 | hk1
          · exact Or.inr ⟨m, List.mem_cons_self _ _, hk1.symm⟩
          · exact Or.inl hk1
        · exact Or.inr ⟨y, List.mem_cons_of_mem m hy, hky⟩

theorem dedupMessages_keys_fresh {hash : String → String} {l : List Message}
    {seen : List String} :
    ∀ y ∈ dedupMessages hash l seen, msgKey hash y ∉ seen := by
  induction l generalizing seen with
  | nil => simp [dedupMessages]
  | cons m ms ih =>
    intro y hy
    simp only [dedupMessages] at hy
    split at hy
    · exact ih y hy
    · rcases List.mem_cons.mp hy with hy1 | hy1
      · subst hy1
        assumption
      · intro hc
        exact ih y hy1 (List.mem_cons_of_mem _ hc)

theorem dedupMessages_keys_nodup {hash : String → String} {l : List Message}
    {seen : List String} :
    (dedupMessages hash l seen).Pairwise
      (fun a b => msgKey hash a ≠ msgKey hash b) := by
  induction l generalizing seen with
  | nil => simp [dedupMessages]
  | cons m ms ih =>
    simp only [dedupMessages]
    split
    · exact ih
    · refine List.Pairwise.cons ?_ ih
      intro y hy hc
      exact dedupMessages_keys_fresh y hy (hc ▸ List.mem_cons_self _ _)

theorem convPostInit_messages (hash : String → String) (c : Conversation) :
    (convPostInit hash c).messages = c.messages := by
  simp only [convPostInit]
  split <;> rfl

/-- C5: two same-source conversations, the later created at most 30
minutes after the update of the earlier, with boundary-text Jaccard
similarity above 0.7, merge into a single conversation whose message
list is a time-sorted, key-deduplicated union of both message lists:
it is sorted by timestamp, contains only messages of the two inputs,
represents every input message by its dedup key, and holds no two
messages with the same dedup key. -/
theorem merge_boundary_similarity (hash : String → String) (c1 c2 : Conversation)
    (t1 t2 u1 : Timestamp)
    (hct1 : c1.createdAt = some t1) (hct2 : c2.createdAt = some t2)
    (hup1 : c1.updatedAt = some u1)
    (hsrc : c1.source = c2.source)
    (horder : t1.epoch ≤ t2.epoch)
    (hgap : t2.epoch - u1.epoch ≤ 1800)
    (lm fm : Message)
    (hlm : c1.messages.getLast? = some lm) (hfm : c2.messages.head? = some fm)
    (hsim : (7 : ℚ)/10 <
      calcSimilarity ⟨lm.content.data.take 100⟩ ⟨fm.content.data.take 100⟩) :
    ∃ m, mergeConversations hash [c1, c2] = [m] ∧
      m.messages.Pairwise (fun a b => a.timestamp.epoch ≤ b.timestamp.epoch) ∧
      (∀ x ∈ m.messages, x ∈ c1.messages ∨ x ∈ c2.messages) ∧
      (∀ x, (x ∈ c1.messages ∨ x ∈ c2.messages) →
        ∃ y ∈ m.messages, msgKey hash y = msgKey hash x) ∧
      m.messages.Pairwise (fun a b => msgKey hash a ≠ msgKey hash b) := by
  have hle : convLe c1 c2 = true := by
    simp only [convLe, tsOf, hct1, hct2, Option.getD_some, decide_eq_true_eq]
    exact horder
  have hsort : stableSort convLe [c1, c2] = [c1, c2] := by
    simp [stableSort, insertStable, hle]
  have hsm : shouldMerge c1 c2 = true := by
    simp only [shouldMerge, hlm, hfm]
    rw [if_neg (by simp [hsrc])]
    rw [if_neg (by
      rw [hct2, hup1]
      simp only [tsOf, Option.getD_some]
      omega)]
    simp [hsim]
  have hmc : mergeConversations hash [c1, c2] = (mergeGroup hash [c1, c2]).toList := by
    rw [mergeConversations, hsort]
    simp [mergeLoop, hsm]
  obtain ⟨m, hm⟩ : ∃ m, mergeGroup hash [c1, c2] = some m := ⟨_, rfl⟩
  have hmsgs : m.messages =
      stableSort msgLe (dedupMessages hash (c1.messages ++ c2.messages) []) := by
    simp only [mergeGroup] at hm
    rw [← Option.some.inj hm, convPostInit_messages]
    simp
  have htot : ∀ a b : Message, msgLe a b = true ∨ msgLe b a = true := by
    intro a b
    simp only [msgLe, decide_eq_true_eq]
    exact Int.le_total _ _
  have htrans : ∀ a b c : Message, msgLe a b = true → msgLe b c = true →
      msgLe a c = true := by
    intro a b c hab hbc
    simp only [msgLe, decide_eq_true_eq] at hab hbc ⊢
    omega
  refine ⟨m, ?_, ?_, ?_, ?_, ?_⟩
  · rw [hmc, hm]
    rfl
  · rw [hmsgs]
    exact (pairwise_stableSort htot htrans _).imp
      (fun h => by simpa [msgLe] using h)
  · intro x hx
    rw [hmsgs] at hx
    exact List.mem_append.mp (dedupMessages_subset (mem_stableSort.mp hx))
  · intro x hx
    rcases @dedupMessages_covers hash _ [] _
        (List.mem_append.mpr hx) with hk | ⟨y, hy, hky⟩
    · exact absurd hk (List.not_mem_nil _)
    · exact ⟨y, by rw [hmsgs]; exact mem_stableSort.mpr hy, hky⟩
  · rw [hmsgs]
    exact ((stableSort_perm msgLe _).pairwise_iff
      (fun h hc => h hc.symm)).mpr dedupMessages_keys_nodup

/-- Witness for C5 at concrete conversations: same source, 90 seconds
apart, boundary similarity 3/4 over the word sets. -/
theorem merge_boundary_similarity_witness :
    ∃ m, mergeConversations idHash [mrgConvA, mrgConvB] = [m] ∧
      m.messages.Pairwise (fun a b => a.timestamp.epoch ≤ b.timestamp.epoch) ∧
      (∀ x ∈ m.messages, x ∈ mrgConvA.messages ∨ x ∈ mrgConvB.messages) ∧
      (∀ x, (x ∈ mrgConvA.messages ∨ x ∈ mrgConvB.messages) →
        ∃ y ∈ m.messages, msgKey idHash y = msgKey idHash x) ∧
      m.messages.Pairwise (fun a b => msgKey idHash a ≠ msgKey idHash b) := by
  refine merge_boundary_similarity idHash mrgConvA mrgConvB
    ⟨0, true⟩ ⟨100, true⟩ ⟨10, true⟩ rfl rfl rfl rfl (by norm_num) (by norm_num)
    mrgMsgA mrgMsgB rfl rfl ?_
  have e1 : (⟨mrgMsgA.content.data.take 100⟩ : String) = "alpha beta gamma" := rfl
  have e2 : (⟨mrgMsgB.content.data.take 100⟩ : String) = "alpha beta gamma delta" := rfl
  rw [e1, e2]
  have h3 : (wordSet "alpha beta gamma").filter
      (fun x => decide (x ∈ wordSet "alpha beta gamma delta")) =
      ["alpha", "beta", "gamma"] := rfl
  have h4 : wordSet "alpha beta gamma" ++ (wordSet "alpha beta gamma delta").filter
      (fun x => decide (x ∉ wordSet "alpha beta gamma")) =
      ["alpha", "beta", "gamma", "delta"] := rfl
  have h1 : wordSet "alpha beta gamma" = ["alpha", "beta", "gamma"] := rfl
  have h2 : wordSet "alpha beta gamma delta" = ["alpha", "beta", "gamma", "delta"] := rfl
  have hv : calcSimilarity "alpha beta gamma" "alpha beta gamma delta" = (3 : ℚ)/4 := by
    simp only [calcSimilarity]
    rw [h3, h4, h1, h2]
    norm_num
    exact ⟨by simp, by simp⟩
  rw [hv]
  norm_num

/-- C1, counterexample: the dedup hash sets live on the
`DataNormalizer` instance, not on one run.  Normalizing a one-element
list produces a non-empty output, and feeding that output back into the
same instance (carrying its state) returns a different (empty) list, so
normalization through one instance is not idempotent. -/
theorem normalize_reuse_not_idempotent :
    (normalizeConversations idHash "T" none freshState [cexConv]).1 ≠ [] ∧
    (normalizeConversations idHash "T" none
        (normalizeConversations idHash "T" none freshState [cexConv]).2
        (normalizeConversations idHash "T" none freshState [cexConv]).1).1 ≠
      (normalizeConversations idHash "T" none freshState [cexConv]).1 := by
  decide

theorem mem_wsToSpace {l : List Char} {c : Char} (h : c ∈ wsToSpace l) :
    c = ' ' ∨ c ∈ l := by
  obtain ⟨a, ha, hfa⟩ := List.mem_map.mp h
  by_cases hsp : isPySpace a
  · left
    rw [← hfa]
    simp [hsp]
  · right
    rw [← hfa]
    simpa [hsp] using ha

theorem wsToSpace_wsIsSpace (l : List Char) : wsIsSpace (wsToSpace l) := by
  intro c hc hsp
  obtain ⟨a, _, hfa⟩ := List.mem_map.mp hc
  by_cases h : isPySpace a
  · rw [← hfa]
    simp [h]
  · rw [← hfa] at hsp
    simp [h] at hsp

theorem squashSpaces_subset {l : List Char} {c : Char}
    (h : c ∈ squashSpaces l) : c ∈ l := by
  induction l using squashSpaces.induct with
  | case1 => simp [squashSpaces] at h
  | case2 a => simpa [squashSpaces] using h
  | case3 a b rest hab ih =>
    rw [squashSpaces, if_pos hab] at h
    exact List.mem_cons_of_mem a (ih h)
  | case4 a b rest hab ih =>
    rw [squashSpaces, if_neg hab] at h
    rcases List.mem_cons.mp h with h1 | h1
    · exact h1 ▸ List.mem_cons_self a _
    · exact List.mem_cons_of_mem a (ih h1)

theorem squashSpaces_ne_nil {l : List Char} (h : l ≠ []) :
    squashSpaces l ≠ [] := by
  induction l using squashSpaces.induct with
  | case1 => exact absurd rfl h
  | case2 a => simp [squashSpaces]
  | case3 a b rest hab ih =>
    rw [squashSpaces, if_pos hab]
    exact ih (by simp)
  | case4 a b rest hab ih =>
    rw [squashSpaces, if_neg hab]
    simp

theorem squashSpaces_head {b : Char} {rest : List Char} (hb : b ≠ ' ') :
    (squashSpaces (b :: rest)).head? = some b := by
  cases rest with
  | nil => rfl
  | cons c r =>
    rw [squashSpaces, if_neg (by intro hx; exact hb hx.1)]
    rfl

theorem squashSpaces_noTwo (l : List Char) : noTwoSpaces (squashSpaces l) := by
  induction l using squashSpaces.induct with
  | case1 => simp [squashSpaces, noTwoSpaces]
  | case2 a => simp [squashSpaces, noTwoSpaces]
  | case3 a b rest hab ih =>
    rw [squashSpaces, if_pos hab]
    exact ih
  | case4 a b rest hab ih =>
    rw [squashSpaces, if_neg hab]
    refine List.chain'_cons'.mpr ⟨?_, ih⟩
    intro y hy hcon
    by_cases hbs : b = ' '
    · exact hab ⟨hcon.1, hbs⟩
    · rw [squashSpaces_head hbs] at hy
      exact hbs (Option.some.inj hy ▸ hcon.2)

theorem squashSpaces_mem_ne_space {l : List Char} {c : Char}
    (h : c ∈ l) (hc : c ≠ ' ') : c ∈ squashSpaces l := by
  induction l using squashSpaces.induct with
  | case1 => simp at h
  | case2 a => simpa [squashSpaces] using h
  | case3 a b rest hab ih =>
    rw [squashSpaces, if_pos hab]
    rcases List.mem_cons.mp h with h1 | h1
    · exact absurd (h1 ▸ hab.1) hc
    · exact ih h1
  | case4 a b rest hab ih =>
    rw [squashSpaces, if_neg hab]
    rcases List.mem_cons.mp h with h1 | h1
    · exact h1 ▸ List.mem_cons_self a _
    · exact List.mem_cons_of_mem a (ih h1)


theorem crlf_id {l : List Char} (h : ∀ c ∈ l, c ≠ '\r') : crlfToNl l = l := by
  induction l using crlfToNl.induct with
  | case1 => rfl
  | case2 rest ih => exact absurd rfl (h _ (List.mem_cons_self _ _))
  | case3 rest ih => exact absurd rfl (h _ (List.mem_cons_self _ _))
  | case4 c rest h1 h2 ih =>
    rw [crlfToNl]
    · rw [ih (fun x hx => h x (List.mem_cons_of_mem c hx))]
    · exact h1
    · exact h2

theorem squashNewlines_id {l : List Char} (h : ∀ c ∈ l, c ≠ '\n') :
    squashNewlines l = l := by
  induction l using squashNewlines.induct with
  | case1 rest ih => exact absurd rfl (h _ (List.mem_cons_self _ _))
  | case2 c rest h1 ih =>
    rw [squashNewlines]
    · rw [ih (fun x hx => h x (List.mem_cons_of_mem c hx))]
    · exact h1
  | case3 => rfl

theorem dropWhile_head_none {p : α → Bool} {l : List α} {c : α}
    (hc : (l.dropWhile p).head? = some c) : p c = false := by
  have h := List.head?_dropWhile_not p l
  rw [hc] at h
  exact h

theorem dropWhile_id {p : α → Bool} {l : List α}
    (h : ∀ c, l.head? = some c → p c = false) : l.dropWhile p = l := by
  cases l with
  | nil => rfl
  | cons a as =>
    rw [List.dropWhile_cons, if_neg (by simp [h a rfl])]

theorem dropWhile_mem_not {p : α → Bool} {l : List α} {c : α}
    (h : c ∈ l) (hc : p c = false) : c ∈ l.dropWhile p := by
  induction l with
  | nil => simp at h
  | cons a as ih =>
    rw [List.dropWhile_cons]
    split
    · rcases List.mem_cons.mp h with h1 | h1
      · subst h1
        simp_all
      · exact ih h1
    · exact h

theorem trimChars_id {l : List Char} (h : edgesNotSpace l) : trimChars l = l := by
  obtain ⟨h1, h2⟩ := h
  have e1 : dropLeadingWs l = l := dropWhile_id h1
  rw [trimChars, e1]
  have e2 : l.reverse.dropWhile (isPySpace ·) = l.reverse := by
    apply dropWhile_id
    intro c hc
    rw [List.head?_reverse] at hc
    exact h2 c hc
  rw [e2, List.reverse_reverse]

theorem trimChars_infixOf (l : List Char) : trimChars l <:+: l := by
  have h2 : trimChars l <+: dropLeadingWs l := by
    rw [← List.reverse_suffix, trimChars, List.reverse_reverse]
    exact List.dropWhile_suffix _
  exact h2.isInfix.trans (List.dropWhile_suffix _).isInfix

theorem trimChars_edges (l : List Char) : edgesNotSpace (trimChars l) := by
  constructor
  · intro c hc
    rw [trimChars, List.head?_reverse] at hc
    have hne : (dropLeadingWs l).reverse.dropWhile (isPySpace ·) ≠ [] := by
      intro hnil
      rw [hnil] at hc
      simp at hc
    obtain ⟨t, ht⟩ := List.dropWhile_suffix (l := (dropLeadingWs l).reverse) (isPySpace ·)
    have : (dropLeadingWs l).reverse.getLast? = some c := by
      rw [← ht, List.getLast?_append]
      rw [hc]
      rfl
    rw [List.getLast?_reverse] at this
    exact dropWhile_head_none this
  · intro c hc
    rw [trimChars, List.getLast?_reverse] at hc
    exact dropWhile_head_none hc

theorem trimChars_mem_ne_space {l : List Char} {c : Char}
    (h : c ∈ l) (hc : isPySpace c = false) : c ∈ trimChars l := by
  rw [trimChars]
  rw [List.mem_reverse]
  apply dropWhile_mem_not _ hc
  rw [List.mem_reverse]
  exact dropWhile_mem_not h hc

theorem squashSpaces_id {l : List Char} (h : noTwoSpaces l) :
    squashSpaces l = l := by
  induction l using squashSpaces.induct with
  | case1 => rfl
  | case2 a => rfl
  | case3 a b rest hab ih =>
    exact absurd hab (List.chain'_cons.mp h).1
  | case4 a b rest hab ih =>
    rw [squashSpaces, if_neg hab, ih h.tail]

theorem wsToSpace_id {l : List Char} (h : wsIsSpace l) : wsToSpace l = l := by
  rw [wsToSpace]
  rw [List.map_congr_left (g := fun c => c)]
  · exact List.map_id' l
  · intro a ha
    by_cases hs : isPySpace a
    · simp only [if_pos hs]
      exact (h a ha hs).symm
    · simp [hs]

theorem cleanChars_tame {l : List Char}
    (h : ∀ c ∈ l, isCtrlChar c = false ∧ isZeroWidth c = false) :
    cleanChars l = trimChars (squashSpaces (wsToSpace l)) ∧
    cleanFix (cleanChars l) := by
  have hmem : ∀ c ∈ squashSpaces (wsToSpace l), c = ' ' ∨ c ∈ l := by
    intro c hc
    exact mem_wsToSpace (squashSpaces_subset hc)
  have htame : ∀ c ∈ squashSpaces (wsToSpace l),
      isCtrlChar c = false ∧ isZeroWidth c = false := by
    intro c hc
    rcases hmem c hc with h1 | h1
    · subst h1
      exact ⟨by decide, by decide⟩
    · exact h c h1
  have hws : ∀ c ∈ squashSpaces (wsToSpace l), isPySpace c = true → c = ' ' := by
    intro c hc
    exact wsToSpace_wsIsSpace l c (squashSpaces_subset hc)
  have e1 : (squashSpaces (wsToSpace l)).filter (fun c => !isCtrlChar c) =
      squashSpaces (wsToSpace l) := by
    apply List.filter_eq_self.mpr
    intro c hc
    simp [(htame c hc).1]
  have e2 : crlfToNl (squashSpaces (wsToSpace l)) = squashSpaces (wsToSpace l) := by
    apply crlf_id
    intro c hc hcr
    subst hcr
    have := hws _ hc (by decide)
    simp at this
  have e3 : (squashSpaces (wsToSpace l)).filter (fun c => !isZeroWidth c) =
      squashSpaces (wsToSpace l) := by
    apply List.filter_eq_self.mpr
    intro c hc
    simp [(htame c hc).2]
  have htrmem : ∀ c ∈ trimChars (squashSpaces (wsToSpace l)),
      c ∈ squashSpaces (wsToSpace l) :=
    fun c hc => List.IsInfix.subset (trimChars_infixOf _) hc
  have e4 : squashNewlines (trimChars (squashSpaces (wsToSpace l))) =
      trimChars (squashSpaces (wsToSpace l)) := by
    apply squashNewlines_id
    intro c hc hcn
    subst hcn
    have := hws _ (htrmem _ hc) (by decide)
    simp at this
  have emain : cleanChars l = trimChars (squashSpaces (wsToSpace l)) := by
    rw [cleanChars, e1, e2, e3, e4]
  refine ⟨emain, ?_⟩
  rw [emain]
  refine ⟨?_, ?_, ?_, trimChars_edges _⟩
  · intro c hc
    exact hws c (htrmem c hc)
  · intro c hc
    exact htame c (htrmem c hc)
  · exact List.Chain'.infix (squashSpaces_noTwo (wsToSpace l)) (trimChars_infixOf _)

theorem cleanChars_fix {l : List Char} (h : cleanFix l) : cleanChars l = l := by
  obtain ⟨hws, htame, hnt, hedge⟩ := h
  have f1 : l.filter (fun c => !isCtrlChar c) = l :=
    List.filter_eq_self.mpr (fun c hc => by simp [(htame c hc).1])
  have f2 : crlfToNl l = l := by
    apply crlf_id
    intro c hc hcr
    subst hcr
    have := hws _ hc (by decide)
    simp at this
  have f3 : l.filter (fun c => !isZeroWidth c) = l :=
    List.filter_eq_self.mpr (fun c hc => by simp [(htame c hc).2])
  have f4 : trimChars l = l := trimChars_id hedge
  have f5 : squashNewlines l = l := by
    apply squashNewlines_id
    intro c hc hcn
    subst hcn
    have := hws _ hc (by decide)
    simp at this
  rw [cleanChars, wsToSpace_id hws, squashSpaces_id hnt, f1, f2, f3, f4, f5]

theorem cleanContent_data (s : String) : cleanContent s = ⟨cleanChars s.data⟩ := by
  rw [cleanContent]
  split
  · rename_i hs
    subst hs
    rfl
  · rfl

theorem cleanContent_fix {s : String} (h : cleanFix s.data) : cleanContent s = s := by
  rw [cleanContent_data, cleanChars_fix h]

theorem normalizeRole_cases (r : String) :
    normalizeRole r = "user" ∨ normalizeRole r = "assistant" ∨
      normalizeRole r = "system" := by
  simp only [normalizeRole]
  split
  · exact Or.inl rfl
  · split
    · exact Or.inr (Or.inl rfl)
    · split
      · exact Or.inr (Or.inr rfl)
      · exact Or.inr (Or.inl rfl)

theorem roleStep_idem (r : String) : roleStep (roleStep r) = roleStep r := by
  by_cases h : normalizeRole (strToLower r) ≠ strToLower r
  · have e1 : roleStep r = normalizeRole (strToLower r) := by
      simp only [roleStep]
      rw [if_pos h]
    rw [e1]
    rcases normalizeRole_cases (strToLower r) with h1 | h1 | h1 <;> rw [h1] <;> decide
  · have e1 : roleStep r = r := by
      simp only [roleStep]
      rw [if_neg h]
    rw [e1]
    exact e1

theorem tameStr_chars {s : String} (h : tameStr s = true) :
    ∀ c ∈ s.data, isCtrlChar c = false ∧ isZeroWidth c = false := by
  intro c hc
  have := List.all_eq_true.mp h c hc
  constructor
  · cases hcc : isCtrlChar c
    · rfl
    · rw [hcc] at this
      simp at this
  · cases hcc : isZeroWidth c
    · rfl
    · rw [hcc] at this
      simp at this

theorem normalizeMessage_fix {m m1 : Message} (htame : tameStr m.content = true)
    (h : normalizeMessage m = some m1) :
    normalizeMessage m1 = some m1 ∧ cleanFix m1.content.data ∧
    m1.content ≠ "" ∧ m1.timestamp.aware = true := by
  simp only [normalizeMessage] at h
  split at h
  · exact absurd h (by simp)
  · rename_i hguard
    have hm1 := Option.some.inj h
    have hfix : cleanFix (cleanContent m.content).data := by
      rw [cleanContent_data]
      exact (cleanChars_tame (tameStr_chars htame)).2
    have hcontent : m1.content = cleanContent m.content := by
      rw [← hm1]
    have hrole : m1.role = roleStep m.role := by
      rw [← hm1]
    have hts : m1.timestamp.aware = true := by
      rw [← hm1]
      by_cases ha : m.timestamp.aware
      · simp [ha]
      · simp [ha, makeAware]
    have hcne : m1.content ≠ "" := by
      rw [hcontent]
      intro hc
      exact hguard (Or.inl hc)
    refine ⟨?_, hcontent ▸ hfix, hcne, hts⟩
    simp only [normalizeMessage]
    have e1 : roleStep m1.role = m1.role := by
      rw [hrole, roleStep_idem]
    have e2 : cleanContent m1.content = m1.content := by
      apply cleanContent_fix
      rw [hcontent]
      exact hfix
    rw [e1, e2, if_neg]
    · simp [hts]
    · rw [hcontent]
      exact hguard

theorem normMsgs_cons_none {hash : String → String} {seen : List String}
    {m : Message} {ms : List Message} (h : normalizeMessage m = none) :
    normMsgs hash seen (m :: ms) = normMsgs hash seen ms := by
  simp only [normMsgs, h]

theorem normMsgs_cons_dup {hash : String → String} {seen : List String}
    {m m1 : Message} {ms : List Message} (h : normalizeMessage m = some m1)
    (hk : msgKey hash m1 ∈ seen) :
    normMsgs hash seen (m :: ms) = normMsgs hash seen ms := by
  simp only [normMsgs, h]
  rw [if_pos hk]

theorem normMsgs_cons_new {hash : String → String} {seen : List String}
    {m m1 : Message} {ms : List Message} (h : normalizeMessage m = some m1)
    (hk : msgKey hash m1 ∉ seen) :
    normMsgs hash seen (m :: ms) =
      (m1 :: (normMsgs hash (msgKey hash m1 :: seen) ms).1,
       (normMsgs hash (msgKey hash m1 :: seen) ms).2) := by
  simp only [normMsgs, h]
  rw [if_neg hk]

theorem normMsgs_seen_mono {hash : String → String} (msgs : List Message) :
    ∀ (seen : List String) (k : String),
      k ∈ seen → k ∈ (normMsgs hash seen msgs).2 := by
  induction msgs with
  | nil => exact fun seen k h => h
  | cons m ms ih =>
    intro seen k h
    cases hnm : normalizeMessage m with
    | none =>
      rw [normMsgs_cons_none hnm]
      exact ih seen k h
    | some mm =>
      by_cases hk : msgKey hash mm ∈ seen
      · rw [normMsgs_cons_dup hnm hk]
        exact ih seen k h
      · rw [normMsgs_cons_new hnm hk]
        exact ih _ k (List.mem_cons_of_mem _ h)

theorem normMsgs_out_from {hash : String → String} (msgs : List Message) :
    ∀ (seen : List String) (m1 : Message), m1 ∈ (normMsgs hash seen msgs).1 →
      ∃ m ∈ msgs, normalizeMessage m = some m1 := by
  induction msgs with
  | nil =>
    intro seen m1 h
    simp [normMsgs] at h
  | cons m ms ih =>
    intro seen m1 h
    cases hnm : normalizeMessage m with
    | none =>
      rw [normMsgs_cons_none hnm] at h
      obtain ⟨m2, hm2, he⟩ := ih seen m1 h
      exact ⟨m2, List.mem_cons_of_mem m hm2, he⟩
    | some mm =>
      by_cases hk : msgKey hash mm ∈ seen
      · rw [normMsgs_cons_dup hnm hk] at h
        obtain ⟨m2, hm2, he⟩ := ih seen m1 h
        exact ⟨m2, List.mem_cons_of_mem m hm2, he⟩
      · rw [normMsgs_cons_new hnm hk] at h
        rcases List.mem_cons.mp h with h1 | h1
        · exact ⟨m, List.mem_cons_self _ _, h1 ▸ hnm⟩
        · obtain ⟨m2, hm2, he⟩ := ih _ m1 h1
          exact ⟨m2, List.mem_cons_of_mem m hm2, he⟩

theorem normMsgs_out_fresh {hash : String → String} (msgs : List Message) :
    ∀ (seen : List String) (m1 : Message), m1 ∈ (normMsgs hash seen msgs).1 →
      msgKey hash m1 ∉ seen := by
  induction msgs with
  | nil =>
    intro seen m1 h
    simp [normMsgs] at h
  | cons m ms ih =>
    intro seen m1 h
    cases hnm : normalizeMessage m with
    | none =>
      rw [normMsgs_cons_none hnm] at h
      exact ih seen m1 h
    | some mm =>
      by_cases hk : msgKey hash mm ∈ seen
      · rw [normMsgs_cons_dup hnm hk] at h
        exact ih seen m1 h
      · rw [normMsgs_cons_new hnm hk] at h
        rcases List.mem_cons.mp h with h1 | h1
        · rw [h1]
          exact hk
        · intro hc
          exact ih _ m1 h1 (List.mem_cons_of_mem _ hc)

theorem normMsgs_keys_nodup {hash : String → String} (msgs : List Message) :
    ∀ (seen : List String),
      ((normMsgs hash seen msgs).1.map (msgKey hash)).Nodup := by
  induction msgs with
  | nil =>
    intro seen
    simp [normMsgs]
  | cons m ms ih =>
    intro seen
    cases hnm : normalizeMessage m with
    | none =>
      rw [normMsgs_cons_none hnm]
      exact ih seen
    | some mm =>
      by_cases hk : msgKey hash mm ∈ seen
      · rw [normMsgs_cons_dup hnm hk]
        exact ih seen
      · rw [normMsgs_cons_new hnm hk]
        simp only [List.map_cons, List.nodup_cons]
        refine ⟨?_, ih _⟩
        intro hc
        obtain ⟨y, hy, hky⟩ := List.mem_map.mp hc
        exact normMsgs_out_fresh ms _ y hy (hky ▸ List.mem_cons_self _ _)

theorem normMsgs_out_in_snd {hash : String → String} (msgs : List Message) :
    ∀ (seen : List String) (m1 : Message), m1 ∈ (normMsgs hash seen msgs).1 →
      msgKey hash m1 ∈ (normMsgs hash seen msgs).2 := by
  induction msgs with
  | nil =>
    intro seen m1 h
    simp [normMsgs] at h
  | cons m ms ih =>
    intro seen m1 h
    cases hnm : normalizeMessage m with
    | none =>
      rw [normMsgs_cons_none hnm] at h ⊢
      exact ih seen m1 h
    | some mm =>
      by_cases hk : msgKey hash mm ∈ seen
      · rw [normMsgs_cons_dup hnm hk] at h ⊢
        exact ih seen m1 h
      · rw [normMsgs_cons_new hnm hk] at h ⊢
        rcases List.mem_cons.mp h with h1 | h1
        · exact normMsgs_seen_mono ms _ _ (h1 ▸ List.mem_cons_self _ _)
        · exact ih _ m1 h1

theorem normMsgs_snd_subset {hash : String → String} (msgs : List Message) :
    ∀ (seen : List String) (k : String), k ∈ (normMsgs hash seen msgs).2 →
      k ∈ seen ∨ ∃ m1 ∈ (normMsgs hash seen msgs).1, msgKey hash m1 = k := by
  induction msgs with
  | nil =>
    intro seen k h
    exact Or.inl h
  | cons m ms ih =>
    intro seen k h
    cases hnm : normalizeMessage m with
    | none =>
      rw [normMsgs_cons_none hnm] at h ⊢
      exact ih seen k h
    | some mm =>
      by_cases hk : msgKey hash mm ∈ seen
      · rw [normMsgs_cons_dup hnm hk] at h ⊢
        exact ih seen k h
      · rw [normMsgs_cons_new hnm hk] at h ⊢
        rcases ih _ k h with h1 | ⟨m1, hm1, hkm1⟩
        · rcases List.mem_cons.mp h1 with h2 | h2
          · exact Or.inr ⟨mm, List.mem_cons_self _ _, h2.symm⟩
          · exact Or.inl h2
        · exact Or.inr ⟨m1, List.mem_cons_of_mem _ hm1, hkm1⟩

theorem normMsgs_fixpoint {hash : String → String} (msgs : List Message) :
    ∀ (seen : List String),
      (∀ m ∈ msgs, normalizeMessage m = some m) →
      (msgs.map (msgKey hash)).Nodup →
      (∀ m ∈ msgs, msgKey hash m ∉ seen) →
      (normMsgs hash seen msgs).1 = msgs := by
  induction msgs with
  | nil =>
    intro seen _ _ _
    rfl
  | cons m ms ih =>
    intro seen hfix hnd hfresh
    rw [normMsgs_cons_new (hfix m (List.mem_cons_self _ _))
      (hfresh m (List.mem_cons_self _ _))]
    simp only [List.cons.injEq, true_and]
    apply ih
    · exact fun x hx => hfix x (List.mem_cons_of_mem _ hx)
    · exact (List.nodup_cons.mp (by simpa using hnd)).2
    · intro x hx hc
      rcases List.mem_cons.mp hc with h1 | h1
      · exact (List.nodup_cons.mp (by simpa using hnd)).1
          (h1 ▸ List.mem_map_of_mem (msgKey hash) hx)
      · exact hfresh x (List.mem_cons_of_mem _ hx) h1

theorem metaGet_set (m : List (String × MetaVal)) (k : String) (v : MetaVal) :
    metaGet k (metaSet m k v) = some v := by
  induction m with
  | nil => simp [metaSet, metaGet]
  | cons kv rest ih =>
    rcases kv with ⟨k1, v1⟩
    simp only [metaSet]
    by_cases h : k1 = k
    · rw [if_pos h]
      simp [metaGet]
    · rw [if_neg h]
      simp only [metaGet]
      rw [if_neg h]
      exact ih

theorem metaGet_set_ne (m : List (String × MetaVal)) (k k2 : String)
    (v : MetaVal) (h : k ≠ k2) :
    metaGet k2 (metaSet m k v) = metaGet k2 m := by
  induction m with
  | nil =>
    simp only [metaSet, metaGet]
    rw [if_neg h]
  | cons kv rest ih =>
    rcases kv with ⟨k1, v1⟩
    simp only [metaSet]
    by_cases h1 : k1 = k
    · rw [if_pos h1]
      simp only [metaGet]
      rw [if_neg h, if_neg (h1 ▸ h)]
    · rw [if_neg h1]
      simp only [metaGet]
      by_cases h2 : k1 = k2
      · rw [if_pos h2, if_pos h2]
      · rw [if_neg h2, if_neg h2]
        exact ih

theorem metaSet_absorb (m : List (String × MetaVal)) (k : String) (v : MetaVal)
    (h : metaGet k m = some v) : metaSet m k v = m := by
  induction m with
  | nil => simp [metaGet] at h
  | cons kv rest ih =>
    rcases kv with ⟨k1, v1⟩
    simp only [metaGet] at h
    simp only [metaSet]
    by_cases hk : k1 = k
    · rw [if_pos hk]
      rw [if_pos hk] at h
      have hv := Option.some.inj h
      rw [← hk, ← hv]
    · rw [if_neg hk]
      rw [if_neg hk] at h
      rw [ih h]

theorem normMeta_idem (now : String) (md : List (String × MetaVal)) :
    normMeta now (normMeta now md) = normMeta now md := by
  have h1 : metaGet "normalized" (normMeta now md) = some (.b true) := by
    rw [normMeta]
    rw [metaGet_set_ne _ _ _ _ (by decide)]
    exact metaGet_set _ _ _
  have h2 : metaGet "normalization_timestamp" (normMeta now md) =
      some (.s now) := by
    rw [normMeta]
    exact metaGet_set _ _ _
  rw [normMeta, metaSet_absorb _ _ _ h1, metaSet_absorb _ _ _ h2]

theorem pyStrip_ne_exists {t : String} (h : pyStrip t ≠ "") :
    ∃ c ∈ t.data, isPySpace c = false := by
  by_contra hall
  push_neg at hall
  apply h
  have hall2 : ∀ c ∈ t.data, isPySpace c = true := by
    intro c hc
    cases hx : isPySpace c
    · exact absurd hx (hall c hc)
    · rfl
  rw [pyStrip, trimChars, dropLeadingWs]
  rw [List.dropWhile_eq_nil_iff.mpr (fun x hx => hall2 x hx)]
  rfl

theorem cleanChars_mem_ne_space {l : List Char} {a : Char}
    (htame : ∀ c ∈ l, isCtrlChar c = false ∧ isZeroWidth c = false)
    (ha : a ∈ l) (hsp : isPySpace a = false) : a ∈ cleanChars l := by
  rw [(cleanChars_tame htame).1]
  apply trimChars_mem_ne_space _ hsp
  apply squashSpaces_mem_ne_space
  · rw [wsToSpace]
    refine List.mem_map.mpr ⟨a, ha, ?_⟩
    simp [hsp]
  · intro hc
    rw [hc] at hsp
    exact absurd hsp (by decide)

theorem chain'_no_space {l : List Char} (h : ∀ a ∈ l, a ≠ ' ') :
    noTwoSpaces l := by
  induction l with
  | nil => exact List.chain'_nil
  | cons a rest ih =>
    refine List.chain'_cons'.mpr ⟨?_, ih (fun x hx => h x (List.mem_cons_of_mem _ hx))⟩
    intro y _ hc
    exact h a (List.mem_cons_self _ _) hc.1

theorem head?_take {l : List α} {n : Nat} (hn : 0 < n) :
    (l.take n).head? = l.head? := by
  cases l with
  | nil => simp
  | cons a as =>
    cases n with
    | zero => exact absurd hn (by simp)
    | succ k => simp

theorem noTwoSpaces_dots : noTwoSpaces ['.', '.', '.'] := by
  refine List.chain'_cons.mpr ⟨?_, List.chain'_cons.mpr ⟨?_, List.chain'_singleton _⟩⟩
  · rintro ⟨h1, _⟩
    exact absurd h1 (by decide)
  · rintro ⟨h1, _⟩
    exact absurd h1 (by decide)

theorem cleanFix_truncAppend {l : List Char} {n : Nat}
    (h : cleanFix l) (hne : l ≠ []) (hn : 0 < n) :
    cleanFix (l.take n ++ ['.', '.', '.']) := by
  obtain ⟨hws, htame, hnt, hh, hl⟩ := h
  have hdotmem : ∀ c : Char, c ∈ ['.', '.', '.'] → c = '.' := by
    intro c hc
    rcases List.mem_cons.mp hc with h1 | hc
    · exact h1
    rcases List.mem_cons.mp hc with h1 | hc
    · exact h1
    rcases List.mem_cons.mp hc with h1 | hc
    · exact h1
    · simp at hc
  obtain ⟨a0, ha0⟩ : ∃ a, l.head? = some a := by
    cases l with
    | nil => exact absurd rfl hne
    | cons x xs => exact ⟨x, rfl⟩
  refine ⟨?_, ?_, ?_, ?_, ?_⟩
  · intro c hc hsp
    rcases List.mem_append.mp hc with h1 | h1
    · exact hws c (List.take_subset _ _ h1) hsp
    · rw [hdotmem c h1] at hsp
      exact absurd hsp (by decide)
  · intro c hc
    rcases List.mem_append.mp hc with h1 | h1
    · exact htame c (List.take_subset _ _ h1)
    · rw [hdotmem c h1]
      exact ⟨by decide, by decide⟩
  · refine List.chain'_append.mpr ⟨hnt.take n, noTwoSpaces_dots, ?_⟩
    intro x _ y hy
    have hy2 : y = '.' := by
      have : (['.', '.', '.'] : List Char).head? = some '.' := rfl
      rw [this] at hy
      exact (Option.mem_some_iff.mp hy).symm
    rintro ⟨_, hdot⟩
    rw [hy2] at hdot
    exact absurd hdot (by decide)
  · intro c hc
    rw [List.head?_append, head?_take hn, ha0] at hc
    have : c = a0 := by
      simp at hc
      exact hc.symm
    rw [this]
    exact hh a0 ha0
  · intro c hc
    rw [List.getLast?_append] at hc
    have hdl : (['.', '.', '.'] : List Char).getLast? = some '.' := rfl
    rw [hdl] at hc
    have : c = '.' := by
      simp at hc
      exact hc.symm
    rw [this]
    decide

theorem string_ne_of_data_ne {s : String} (h : s.data ≠ []) : s ≠ "" := by
  intro hc
  rw [hc] at h
  exact h rfl

theorem plainToken_parts {s : String} (h : plainToken s = true) :
    (∀ c ∈ s.data, isCtrlChar c = false ∧ isZeroWidth c = false ∧
      isPySpace c = false) ∧ s ≠ "" ∧ s.length ≤ 187 := by
  simp only [plainToken, Bool.and_eq_true, List.all_eq_true] at h
  obtain ⟨⟨h1, h2⟩, h3⟩ := h
  refine ⟨?_, ?_, by simpa using h3⟩
  · intro c hc
    have := h1 c hc
    simp only [Bool.and_eq_true, Bool.not_eq_true'] at this
    exact ⟨this.1.1, this.1.2, this.2⟩
  · intro hc
    rw [hc] at h2
    simp at h2

theorem titleGood_fallback {s : String} (h : plainToken s = true) :
    titleGood (s ++ " conversation") := by
  obtain ⟨hchars, hne, hlen⟩ := plainToken_parts h
  have hdata : s.data ≠ [] := by
    intro hc
    exact hne (String.ext hc)
  obtain ⟨a0, ha0⟩ : ∃ a, s.data.head? = some a := by
    cases hd : s.data with
    | nil => exact absurd hd hdata
    | cons x xs => exact ⟨x, rfl⟩
  have hnsp : ∀ c ∈ s.data, c ≠ ' ' := by
    intro c hc he
    have := (hchars c hc).2.2
    rw [he] at this
    exact absurd this (by decide)
  have hsplit : (s ++ " conversation").data = s.data ++ (" conversation").data := rfl
  refine ⟨⟨?_, ?_, ?_, ?_, ?_⟩, ?_, ?_⟩
  · intro c hc hsp
    rw [hsplit] at hc
    rcases List.mem_append.mp hc with h1 | h1
    · rw [(hchars c h1).2.2] at hsp
      exact absurd hsp (by simp)
    · exact (by decide : ∀ c ∈ (" conversation").data, isPySpace c = true → c = ' ')
        c h1 hsp
  · intro c hc
    rw [hsplit] at hc
    rcases List.mem_append.mp hc with h1 | h1
    · exact ⟨(hchars c h1).1, (hchars c h1).2.1⟩
    · exact (by decide : ∀ c ∈ (" conversation").data,
        isCtrlChar c = false ∧ isZeroWidth c = false) c h1
  · rw [show noTwoSpaces ((s ++ " conversation").data) =
      noTwoSpaces (s.data ++ (" conversation").data) from rfl]
    refine List.chain'_append.mpr ⟨chain'_no_space hnsp, ?_, ?_⟩
    · have hrest : ∀ a ∈ ("conversation").data, a ≠ ' ' := by decide
      rw [show (" conversation").data = ' ' :: ("conversation").data from rfl]
      refine List.chain'_cons'.mpr ⟨?_, chain'_no_space hrest⟩
      intro y hy hcon
      exact hrest y (List.mem_of_mem_head? hy) hcon.2
    · intro x hx y hy hcon
      exact hnsp x (List.mem_of_getLast?_eq_some hx) hcon.1
  · intro c hc
    rw [hsplit, List.head?_append, ha0] at hc
    simp at hc
    rw [← hc]
    exact (hchars a0 (List.mem_of_mem_head? ha0)).2.2
  · intro c hc
    rw [hsplit, List.getLast?_append] at hc
    rw [show ((" conversation").data : List Char).getLast? = some 'n' from rfl] at hc
    simp at hc
    rw [← hc]
    decide
  · apply string_ne_of_data_ne
    rw [hsplit]
    simp
  · rw [String.length_append]
    have h13 : (" conversation").length = 13 := rfl
    omega

theorem pyStrip_fix {t : String} (h : cleanFix t.data) : pyStrip t = t := by
  rw [pyStrip, trimChars_id h.2.2.2]

theorem normalizeTitle_fix {c : Conversation} {t : String}
    (hc : c.title = some t) (h : titleGood t) : normalizeTitle c = t := by
  obtain ⟨hfix, hne, hlen⟩ := h
  have hps : pyStrip t = t := pyStrip_fix hfix
  simp only [normalizeTitle, hc]
  rw [if_pos (by simp [hne, hps])]
  rw [cleanContent_fix hfix]
  rw [if_neg (by omega)]

theorem titleGood_trunc {s : String} {n : Nat} (hfix : cleanFix s.data)
    (hne : s ≠ "") (hn : 0 < n) (hb : n + 3 ≤ 200) :
    titleGood ((⟨s.data.take n⟩ : String) ++ "...") := by
  have hdata : s.data ≠ [] := fun hc => hne (String.ext hc)
  have hsplit : ((⟨s.data.take n⟩ : String) ++ "...").data =
      s.data.take n ++ ['.', '.', '.'] := rfl
  refine ⟨?_, ?_, ?_⟩
  · rw [show ((⟨s.data.take n⟩ : String) ++ "...").data =
      s.data.take n ++ ['.', '.', '.'] from rfl]
    exact cleanFix_truncAppend hfix hdata hn
  · apply string_ne_of_data_ne
    rw [hsplit]
    simp
  · have : ((⟨s.data.take n⟩ : String) ++ "...").length =
        (s.data.take n).length + 3 := by
      rw [String.length_append, String.length_mk]
      rfl
    rw [this, List.length_take]
    omega

theorem normalizeTitle_good {c : Conversation}
    (htitle : ∀ t, c.title = some t → tameStr t = true)
    (hsrc : plainToken c.source = true)
    (hmsgs : ∀ m ∈ c.messages, cleanFix m.content.data ∧ m.content ≠ "") :
    titleGood (normalizeTitle c) := by
  have hgen : titleGood (match c.messages.find? (fun m => m.role == "user") with
      | some m =>
        (⟨m.content.data.take 100⟩ : String) ++
          (if 100 < m.content.length then "..." else "")
      | none => c.source ++ " conversation") := by
    cases hf : c.messages.find? (fun m => m.role == "user") with
    | none => exact titleGood_fallback hsrc
    | some m =>
      obtain ⟨hfixm, hnem⟩ := hmsgs m (List.mem_of_find?_eq_some hf)
      show titleGood ((⟨m.content.data.take 100⟩ : String) ++
        (if 100 < m.content.length then "..." else ""))
      by_cases hlong : 100 < m.content.length
      · rw [if_pos hlong]
        exact titleGood_trunc hfixm hnem (by norm_num) (by norm_num)
      · rw [if_neg hlong]
        have htk : m.content.data.take 100 = m.content.data := by
          apply List.take_of_length_le
          have : m.content.length = m.content.data.length := rfl
          omega
        rw [htk]
        have : (⟨m.content.data⟩ : String) = m.content := rfl
        rw [this, String.append_empty]
        refine ⟨hfixm, hnem, by omega⟩
  cases hct : c.title with
  | none =>
    simp only [normalizeTitle, hct]
    exact hgen
  | some t =>
    by_cases hkeep : (decide (t ≠ "") && decide (pyStrip t ≠ "")) = true
    · simp only [normalizeTitle, hct]
      rw [if_pos hkeep]
      simp only [Bool.and_eq_true, decide_eq_true_eq] at hkeep
      obtain ⟨htne, hstrip⟩ := hkeep
      have htame := htitle t hct
      have hfix1 : cleanFix (cleanContent t).data := by
        rw [cleanContent_data]
        exact (cleanChars_tame (tameStr_chars htame)).2
      have ht1ne : cleanContent t ≠ "" := by
        obtain ⟨c0, hc0, hc0sp⟩ := pyStrip_ne_exists hstrip
        apply string_ne_of_data_ne
        rw [cleanContent_data]
        intro hnil
        have := cleanChars_mem_ne_space (tameStr_chars htame) hc0 hc0sp
        rw [show (String.mk (cleanChars t.data)).data = cleanChars t.data from rfl] at hnil
        rw [hnil] at this
        exact List.not_mem_nil _ this
      by_cases hlong : 200 < (cleanContent t).length
      · rw [if_pos hlong]
        exact titleGood_trunc hfix1 ht1ne (by norm_num) (by norm_num)
      · rw [if_neg hlong]
        exact ⟨hfix1, ht1ne, by omega⟩
    · simp only [normalizeTitle, hct]
      rw [if_neg hkeep]
      exact hgen

theorem msgLe_total (a b : Message) : msgLe a b = true ∨ msgLe b a = true := by
  simp only [msgLe, decide_eq_true_eq]
  exact Int.le_total _ _

theorem msgLe_trans (a b c : Message) (hab : msgLe a b = true)
    (hbc : msgLe b c = true) : msgLe a c = true := by
  simp only [msgLe, decide_eq_true_eq] at hab hbc ⊢
  omega

theorem headD_mem {l : List α} (d : α) (h : l ≠ []) : l.headD d ∈ l := by
  cases l with
  | nil => exact absurd rfl h
  | cons a as => exact List.mem_cons_self _ _

theorem getLastD_mem {l : List α} (d : α) (h : l ≠ []) : l.getLastD d ∈ l := by
  obtain ⟨x, hx⟩ : ∃ x, l.getLast? = some x := by
    rw [List.getLast?_eq_head?_reverse]
    cases hr : l.reverse with
    | nil => exact absurd (List.reverse_eq_nil_iff.mp hr) h
    | cons a as => exact ⟨a, rfl⟩
  have he : l.getLastD d = x := by
    rw [List.getLastD_eq_getLast?, hx]
    rfl
  rw [he]
  exact List.mem_of_getLast?_eq_some hx

theorem normalizeConversation_empty {hash : String → String} {now : String}
    {seen : List String} {c : Conversation} (h : c.messages = []) :
    normalizeConversation hash now seen c = (none, seen) := by
  simp only [normalizeConversation, h]
  rfl

theorem normalizeConversation_allDropped {hash : String → String} {now : String}
    {seen : List String} {c : Conversation} (h : c.messages ≠ [])
    (h2 : (normMsgs hash seen c.messages).1 = []) :
    normalizeConversation hash now seen c =
      (none, (normMsgs hash seen c.messages).2) := by
  simp only [normalizeConversation]
  rw [if_neg h]
  rcases hsub : normMsgs hash seen c.messages with ⟨msgs, s1⟩
  rw [hsub] at h2
  simp only at h2
  rw [h2]
  simp

theorem tameConv_parts {c : Conversation} (h : tameConv c = true) :
    (∀ m ∈ c.messages, tameStr m.content = true) ∧
    (∀ t, c.title = some t → tameStr t = true) ∧
    plainToken c.source = true := by
  simp only [tameConv, Bool.and_eq_true, List.all_eq_true] at h
  obtain ⟨⟨h1, h2⟩, h3⟩ := h
  refine ⟨h1, ?_, h3⟩
  intro t ht
  rw [ht] at h2
  exact h2

theorem normalizeConversation_sound {hash : String → String} {now : String}
    {seen : List String} {c c1 : Conversation} {seen1 : List String}
    (htame : tameConv c = true)
    (h : normalizeConversation hash now seen c = (some c1, seen1)) :
    ConvNormed hash now c1 ∧
    (∀ k ∈ c1.messages.map (msgKey hash), k ∉ seen ∧ k ∈ seen1) ∧
    (∀ k ∈ seen, k ∈ seen1) ∧
    c1.source = c.source := by
  obtain ⟨htmsg, httl, htsrc⟩ := tameConv_parts htame
  by_cases hne : c.messages = []
  · rw [normalizeConversation_empty hne] at h
    exact absurd (congrArg Prod.fst h) (by simp)
  · simp only [normalizeConversation] at h
    rw [if_neg hne] at h
    rcases hsub : normMsgs hash seen c.messages with ⟨msgs, s1⟩
    rw [hsub] at h
    by_cases hmne : msgs = []
    · rw [if_pos hmne] at h
      exact absurd (congrArg Prod.fst h) (by simp)
    · rw [if_neg hmne] at h
      simp only at h
      have hc1 := (Option.some.inj (congrArg Prod.fst h)).symm
      have hs1 : s1 = seen1 := congrArg Prod.snd h
      subst hs1
      subst hc1
      have hmfacts : ∀ m1 ∈ msgs, normalizeMessage m1 = some m1 ∧
          cleanFix m1.content.data ∧ m1.content ≠ "" ∧
          m1.timestamp.aware = true := by
        intro m1 hm1
        obtain ⟨m0, hm0, he⟩ := normMsgs_out_from c.messages seen m1
          (by rw [hsub]; exact hm1)
        exact normalizeMessage_fix (htmsg m0 hm0) he
      have hsortmem : ∀ m1, m1 ∈ stableSort msgLe msgs ↔ m1 ∈ msgs :=
        fun m1 => mem_stableSort
      have hsortne : stableSort msgLe msgs ≠ [] := by
        intro hcn
        apply hmne
        have hp := stableSort_perm msgLe msgs
        rw [hcn] at hp
        exact hp.symm.eq_nil
      have hfreshkeys : ∀ k ∈ msgs.map (msgKey hash), k ∉ seen ∧ k ∈ s1 := by
        intro k hk
        obtain ⟨m1, hm1, hkm⟩ := List.mem_map.mp hk
        constructor
        · have := normMsgs_out_fresh c.messages seen m1 (by rw [hsub]; exact hm1)
          exact hkm ▸ this
        · have := normMsgs_out_in_snd c.messages seen m1 (by rw [hsub]; exact hm1)
          rw [hsub] at this
          exact hkm ▸ this
      refine ⟨?_, ?_, ?_, ?_⟩
      · refine ConvNormed.mk ?_ ?_ ?_ ?_ ?_ ?_ ?_ ?_
        · exact hsortne
        · intro m hm
          exact (hmfacts m ((hsortmem m).mp hm)).1
        · exact pairwise_stableSort msgLe_total msgLe_trans msgs
        ·
          have hnodup := @normMsgs_keys_nodup hash c.messages seen
          rw [hsub] at hnodup
          exact (((stableSort_perm msgLe msgs).map (msgKey hash)).nodup_iff).mpr hnodup
        · cases hcc : c.createdAt with
          | none =>
            refine ⟨((stableSort msgLe msgs).headD dummyMsg).timestamp, rfl, ?_⟩
            exact (hmfacts _ ((hsortmem _).mp (headD_mem _ hsortne))).2.2.2
          | some t =>
            by_cases haw : t.aware = true
            · exact ⟨t, by simp [haw], haw⟩
            · refine ⟨((stableSort msgLe msgs).headD dummyMsg).timestamp,
                by simp [haw], ?_⟩
              exact (hmfacts _ ((hsortmem _).mp (headD_mem _ hsortne))).2.2.2
        · cases hcc : c.updatedAt with
          | none =>
            refine ⟨((stableSort msgLe msgs).getLastD dummyMsg).timestamp, rfl, ?_⟩
            exact (hmfacts _ ((hsortmem _).mp (getLastD_mem _ hsortne))).2.2.2
          | some t =>
            by_cases haw : t.aware = true
            · exact ⟨t, by simp [haw], haw⟩
            · refine ⟨((stableSort msgLe msgs).getLastD dummyMsg).timestamp,
                by simp [haw], ?_⟩
              exact (hmfacts _ ((hsortmem _).mp (getLastD_mem _ hsortne))).2.2.2
        · have hgood : titleGood (normalizeTitle
              { cid := c.cid, source := c.source, title := c.title,
                messages := stableSort msgLe msgs,
                createdAt :=
                  some
                    (match c.createdAt with
                    | none => ((stableSort msgLe msgs).headD dummyMsg).timestamp
                    | some t => if t.aware = true then t
                        else ((stableSort msgLe msgs).headD dummyMsg).timestamp),
                updatedAt :=
                  some
                    (match c.updatedAt with
                    | none => ((stableSort msgLe msgs).getLastD dummyMsg).timestamp
                    | some t => if t.aware = true then t
                        else ((stableSort msgLe msgs).getLastD dummyMsg).timestamp),
                threadId := c.threadId, project := c.project,
                workspace := c.workspace, tags := c.tags,
                metadata := c.metadata }) := by
            apply normalizeTitle_good
            · exact httl
            · exact htsrc
            · intro m hm
              have := hmfacts m ((hsortmem m).mp hm)
              exact ⟨this.2.1, this.2.2.1⟩
          exact congrArg some (normalizeTitle_fix rfl hgood).symm
        · exact normMeta_idem now c.metadata
      · intro k hk
        exact hfreshkeys k
          (((stableSort_perm msgLe msgs).map (msgKey hash)).mem_iff.mp hk)
      · intro k hk
        have := @normMsgs_seen_mono hash c.messages seen k hk
        rw [hsub] at this
        exact this
      · rfl

theorem normalizeConversation_fix {hash : String → String} {now : String}
    {seen : List String} {c : Conversation}
    (h : ConvNormed hash now c)
    (hfresh : ∀ k ∈ c.messages.map (msgKey hash), k ∉ seen) :
    normalizeConversation hash now seen c =
      (some c, (normMsgs hash seen c.messages).2) ∧
    ∀ k ∈ (normMsgs hash seen c.messages).2,
      k ∈ seen ∨ k ∈ c.messages.map (msgKey hash) := by
  obtain ⟨hne, hfix, hsorted, hnodup, ⟨tc, htc, hawc⟩, ⟨tu, htu, hawu⟩, htitle, hmeta⟩ := h
  have hfst : (normMsgs hash seen c.messages).1 = c.messages :=
    normMsgs_fixpoint c.messages seen hfix hnodup
      (fun m hm hk => hfresh (msgKey hash m) (List.mem_map_of_mem _ hm) hk)
  constructor
  · simp only [normalizeConversation]
    rw [if_neg hne]
    rcases hsub : normMsgs hash seen c.messages with ⟨msgs, s1⟩
    rw [hsub] at hfst
    simp only at hfst
    subst hfst
    rw [if_neg hne]
    simp only
    have hsort : stableSort msgLe c.messages = c.messages :=
      stableSort_of_pairwise hsorted
    rw [hsort]
    have hcreated : (match c.createdAt with
        | none => (c.messages.headD dummyMsg).timestamp
        | some t => if t.aware = true then t
            else (c.messages.headD dummyMsg).timestamp) = tc := by
      rw [htc]
      simp [hawc]
    have hupdated : (match c.updatedAt with
        | none => (c.messages.getLastD dummyMsg).timestamp
        | some t => if t.aware = true then t
            else (c.messages.getLastD dummyMsg).timestamp) = tu := by
      rw [htu]
      simp [hawu]
    rw [hcreated, hupdated, ← htc, ← htu]
    show (some { c with
      title := some (normalizeTitle c)
      metadata := normMeta now c.metadata }, s1) = (some c, s1)
    rw [← htitle, hmeta]
  · intro k hk
    rcases normMsgs_snd_subset c.messages seen k hk with h1 | ⟨m1, hm1, hkm⟩
    · exact Or.inl h1
    · rw [hfst] at hm1
      exact Or.inr (hkm ▸ List.mem_map_of_mem _ hm1)

theorem normalizeConversation_seen_mono {hash : String → String} {now : String}
    {seen : List String} {c : Conversation} {r : Option Conversation}
    {s1 : List String}
    (h : normalizeConversation hash now seen c = (r, s1)) :
    ∀ k ∈ seen, k ∈ s1 := by
  by_cases hne : c.messages = []
  · rw [normalizeConversation_empty hne] at h
    injection h with h1 h2
    subst h2
    exact fun k hk => hk
  · simp only [normalizeConversation] at h
    rw [if_neg hne] at h
    rcases hsub : normMsgs hash seen c.messages with ⟨msgs, s2⟩
    rw [hsub] at h
    have hmono : ∀ k ∈ seen, k ∈ s2 := by
      intro k hk
      have := @normMsgs_seen_mono hash c.messages seen k hk
      rw [hsub] at this
      exact this
    by_cases hmne : msgs = []
    · rw [if_pos hmne] at h
      injection h with h1 h2
      subst h2
      exact hmono
    · rw [if_neg hmne] at h
      simp only at h
      injection h with h1 h2
      subst h2
      exact hmono

theorem normConvs_sound (hash : String → String) (now : String)
    (filt : Option String) :
    ∀ (convs : List Conversation) (st : NormState),
    (∀ c ∈ convs, tameConv c = true) →
    (∀ c1 ∈ (normalizeConversations hash now filt st convs).1,
        ConvNormed hash now c1 ∧
        filterReject filt c1 = false ∧
        (∀ k ∈ c1.messages.map (msgKey hash), k ∉ st.seenMsg) ∧
        convKey hash c1 ∉ st.seenConv) ∧
    List.Pairwise (fun a b => ∀ k ∈ a.messages.map (msgKey hash),
        k ∉ b.messages.map (msgKey hash))
      (normalizeConversations hash now filt st convs).1 ∧
    ((normalizeConversations hash now filt st convs).1.map (convKey hash)).Nodup := by
  intro convs
  induction convs with
  | nil =>
    intro st _
    refine ⟨?_, ?_, ?_⟩ <;> simp [normalizeConversations]
  | cons c cs ih =>
    intro st htame
    have htc : tameConv c = true := htame c (List.mem_cons_self c cs)
    have htcs : ∀ x ∈ cs, tameConv x = true :=
      fun x hx => htame x (List.mem_cons_of_mem c hx)
    cases hflt : filterReject filt c with
    | true =>
      have hrw : normalizeConversations hash now filt st (c :: cs) =
          normalizeConversations hash now filt st cs := by
        simp only [normalizeConversations, hflt, if_true]
      rw [hrw]
      exact ih st htcs
    | false =>
      have hfltn : ¬(filterReject filt c = true) := by simp [hflt]
      rcases hnc : normalizeConversation hash now st.seenMsg c with ⟨r, sm1⟩
      have hmono : ∀ k ∈ st.seenMsg, k ∈ sm1 :=
        normalizeConversation_seen_mono hnc
      cases r with
      | none =>
        have hrw : normalizeConversations hash now filt st (c :: cs) =
            normalizeConversations hash now filt { st with seenMsg := sm1 } cs := by
          simp only [normalizeConversations, hnc]
          rw [if_neg hfltn]
        rw [hrw]
        obtain ⟨ih1, ih2, ih3⟩ := ih { st with seenMsg := sm1 } htcs
        refine ⟨?_, ih2, ih3⟩
        intro c1 hc1
        obtain ⟨g1, g2, g3, g4⟩ := ih1 c1 hc1
        refine ⟨g1, g2, ?_, g4⟩
        intro k hk hkseen
        exact g3 k hk (hmono k hkseen)
      | some c1 =>
        obtain ⟨hcn, hkeys, hmono2, hsrc⟩ := normalizeConversation_sound htc hnc
        have hfeq : filterReject filt c1 = filterReject filt c := by
          cases filt with
          | none => rfl
          | some s => simp only [filterReject, hsrc]
        by_cases hk : convKey hash c1 ∈ st.seenConv
        · have hrw : normalizeConversations hash now filt st (c :: cs) =
              normalizeConversations hash now filt { st with seenMsg := sm1 } cs := by
            simp only [normalizeConversations, hnc]
            rw [if_neg hfltn]
            rw [if_pos hk]
          rw [hrw]
          obtain ⟨ih1, ih2, ih3⟩ := ih { st with seenMsg := sm1 } htcs
          refine ⟨?_, ih2, ih3⟩
          intro c2 hc2
          obtain ⟨g1, g2, g3, g4⟩ := ih1 c2 hc2
          refine ⟨g1, g2, ?_, g4⟩
          intro k hkm hkseen
          exact g3 k hkm (hmono k hkseen)
        · rcases hrec : normalizeConversations hash now filt
              ⟨convKey hash c1 :: st.seenConv, sm1⟩ cs with ⟨rest, st1⟩
          have hrw : normalizeConversations hash now filt st (c :: cs) =
              (c1 :: rest, st1) := by
            simp only [normalizeConversations, hnc]
            rw [if_neg hfltn]
            rw [if_neg hk, hrec]
          rw [hrw]
          simp only
          obtain ⟨ih1, ih2, ih3⟩ := ih ⟨convKey hash c1 :: st.seenConv, sm1⟩ htcs
          rw [hrec] at ih1 ih2 ih3
          simp only at ih1 ih2 ih3
          refine ⟨?_, ?_, ?_⟩
          · intro c2 hc2
            rcases List.mem_cons.mp hc2 with h1 | h2
            · subst h1
              refine ⟨hcn, ?_, ?_, hk⟩
              · rw [hfeq]
                exact hflt
              · intro k hkm
                exact (hkeys k hkm).1
            · obtain ⟨g1, g2, g3, g4⟩ := ih1 c2 h2
              refine ⟨g1, g2, ?_, ?_⟩
              · intro k hkm hkseen
                exact g3 k hkm (hmono k hkseen)
              · intro hmem
                exact g4 (List.mem_cons_of_mem _ hmem)
          · refine List.pairwise_cons.mpr ⟨?_, ih2⟩
            intro b hb k hkm hkb
            obtain ⟨_, _, g3, _⟩ := ih1 b hb
            exact g3 k hkb (hkeys k hkm).2
          · simp only [List.map_cons]
            refine List.nodup_cons.mpr ⟨?_, ih3⟩
            intro hmem
            obtain ⟨b, hb, hbe⟩ := List.mem_map.mp hmem
            obtain ⟨_, _, _, g4⟩ := ih1 b hb
            exact g4 (hbe ▸ List.mem_cons_self _ _)

theorem normConvs_fix (hash : String → String) (now : String)
    (filt : Option String) :
    ∀ (out : List Conversation) (st : NormState),
    (∀ c1 ∈ out, ConvNormed hash now c1 ∧ filterReject filt c1 = false) →
    List.Pairwise (fun a b => ∀ k ∈ a.messages.map (msgKey hash),
        k ∉ b.messages.map (msgKey hash)) out →
    (∀ c1 ∈ out, ∀ k ∈ c1.messages.map (msgKey hash), k ∉ st.seenMsg) →
    (out.map (convKey hash)).Nodup →
    (∀ c1 ∈ out, convKey hash c1 ∉ st.seenConv) →
    (normalizeConversations hash now filt st out).1 = out := by
  intro out
  induction out with
  | nil =>
    intro st _ _ _ _ _
    rfl
  | cons c1 cs ih =>
    intro st hgood hpw hfresh hnodup hck
    obtain ⟨hcn, hflt⟩ := hgood c1 (List.mem_cons_self c1 cs)
    obtain ⟨heq, hsub⟩ := normalizeConversation_fix hcn
      (hfresh c1 (List.mem_cons_self c1 cs))
    have hknotin : convKey hash c1 ∉ st.seenConv :=
      hck c1 (List.mem_cons_self c1 cs)
    have hfltn : ¬(filterReject filt c1 = true) := by simp [hflt]
    rcases hrec : normalizeConversations hash now filt
        ⟨convKey hash c1 :: st.seenConv, (normMsgs hash st.seenMsg c1.messages).2⟩ cs
      with ⟨rest, st1⟩
    have hrw : normalizeConversations hash now filt st (c1 :: cs) =
        (c1 :: rest, st1) := by
      simp only [normalizeConversations, heq]
      rw [if_neg hfltn]
      rw [if_neg hknotin, hrec]
    have hfresh2 : ∀ c2 ∈ cs, ∀ k ∈ c2.messages.map (msgKey hash),
        k ∉ (normMsgs hash st.seenMsg c1.messages).2 := by
      intro c2 hc2 k hkm hkin
      rcases hsub k hkin with h1 | h2
      · exact hfresh c2 (List.mem_cons_of_mem _ hc2) k hkm h1
      · exact (List.pairwise_cons.mp hpw).1 c2 hc2 k h2 hkm
    have hnd : convKey hash c1 ∉ List.map (convKey hash) cs ∧
        (List.map (convKey hash) cs).Nodup := by
      rw [List.map_cons] at hnodup
      exact List.nodup_cons.mp hnodup
    have hck2 : ∀ c2 ∈ cs, convKey hash c2 ∉
        (convKey hash c1 :: st.seenConv) := by
      intro c2 hc2 hmem
      rcases List.mem_cons.mp hmem with h1 | h2
      · exact hnd.1 (h1 ▸ List.mem_map_of_mem _ hc2)
      · exact hck c2 (List.mem_cons_of_mem _ hc2) h2
    have htail := ih ⟨convKey hash c1 :: st.seenConv,
        (normMsgs hash st.seenMsg c1.messages).2⟩
      (fun c2 hc2 => hgood c2 (List.mem_cons_of_mem _ hc2))
      (List.pairwise_cons.mp hpw).2
      hfresh2
      hnd.2
      hck2
    rw [hrec] at htail
    simp only at htail
    rw [hrw]
    simp only
    rw [htail]

/-- C1 (amended): normalization is idempotent only across runs that each
start from a fresh deduplication state, and only for tame inputs:
message contents and titles must be free of the control and zero-width
characters the cleaner deletes, and each source tag must be a plain
token — non-empty, whitespace-free and at most 187 characters.  The
source-tag condition is needed because the fallback title
`"<source> conversation"` built by `_normalize_title` is itself cleaned
and truncated on the next run, so a source tag with e.g. a double space
or 190 characters makes even fresh-state renormalization change the
title.  Under these conditions, feeding the output of
`normalize_conversations` run on a fresh `DataNormalizer` into a second
fresh run (same clock, same source filter) reproduces the output list
exactly.  The unamended claim fails on a single instance because the
`seen_conversation_hashes` and `seen_message_hashes` sets created in
`__init__` persist across calls (`normalize_reuse_not_idempotent`). -/
theorem normalize_fresh_idempotent (hash : String → String) (now : String)
    (filt : Option String) (convs : List Conversation)
    (htame : ∀ c ∈ convs, tameConv c = true) :
    (normalizeConversations hash now filt freshState
      (normalizeConversations hash now filt freshState convs).1).1 =
    (normalizeConversations hash now filt freshState convs).1 := by
  obtain ⟨h1, h2, h3⟩ := normConvs_sound hash now filt convs freshState htame
  exact normConvs_fix hash now filt
    (normalizeConversations hash now filt freshState convs).1 freshState
    (fun c1 hc1 => ⟨(h1 c1 hc1).1, (h1 c1 hc1).2.1⟩)
    h2
    (fun c1 hc1 k hk hkin => absurd hkin (List.not_mem_nil k))
    h3
    (fun c1 hc1 hkin => absurd hkin (List.not_mem_nil (convKey hash c1)))

/-- Closed witness for the amended idempotence theorem: a concrete tame
conversation, run twice from fresh states under the identity hash. -/
theorem normalize_fresh_idempotent_witness :
    (∀ c ∈ [cexConv], tameConv c = true) ∧
    (normalizeConversations idHash "2024-01-01T00:00:00+00:00" none freshState
      (normalizeConversations idHash "2024-01-01T00:00:00+00:00" none
        freshState [cexConv]).1).1 =
    (normalizeConversations idHash "2024-01-01T00:00:00+00:00" none
      freshState [cexConv]).1 :=
  ⟨by decide,
   normalize_fresh_idempotent idHash "2024-01-01T00:00:00+00:00" none [cexConv]
     (by decide)⟩
